import Mathlib

/-!
Verification development for the Go rules engine.

The Python source is embedded shallowly: each class's observable state is a
Lean structure, every method is a Lean function on it, Python sets become
`Finset`, Python `dict` becomes a key set plus a neighborhood function, and
methods that can raise (`KeyError`, `ValueError`) return `Option`.
-/

namespace GoSpec

/-! ## Colors (`src/stone.py`, class `Color`)

`Color` is an `IntFlag` with members `black = +1`, `empty = 0`, `white = -1`.
Equality `==` is inherited integer equality on the member values; `__ne__` is
overridden to `abs(self - other) == 2`.
-/

inductive Color where
  | black
  | empty
  | white
deriving DecidableEq

/-- The integer value of each `IntFlag` member. -/
def Color.val : Color → Int
  | .black => 1
  | .empty => 0
  | .white => -1

/-- Python `==` on colors: `IntFlag` inherits `int.__eq__`, comparing values. -/
def Color.eqPy (a b : Color) : Bool := a.val == b.val

/-- Python `!=` on colors: the override `abs(self - other) == 2`. -/
def Color.nePy (a b : Color) : Bool := (a.val - b.val).natAbs == 2

/-- Python truthiness of a color: an `int` is truthy iff nonzero. -/
def Color.truthy (a : Color) : Bool := a.val != 0

/-- The character `Color.__repr__` yields (black puc, brown circle, white puc). -/
def Color.reprChar : Color → Char
  | .black => Char.ofNat 0x26AB
  | .empty => Char.ofNat 0x1F7E4
  | .white => Char.ofNat 0x26AA

/-- A dynamically typed Python value as it reaches `Color(...)`. -/
inductive PyVal where
  | int (i : Int)
  | str (s : String)

/-- The `Color(value)` enum call: a member is looked up by value.  Member
values are the integers `+1`, `0`, `-1`; a `str` argument never compares equal
to an `int` in Python, so lookup fails (`ValueError`) for every string. -/
def colorFromValue : PyVal → Option Color
  | .int 1 => some .black
  | .int 0 => some .empty
  | .int (-1) => some .white
  | _ => none

/-! ## Points (`src/point.py`, class `Point`)

A point carries `file`, `rank` and a `size` that `__post_init__` replaces by
its absolute value. `__hash__` hashes the pair `(file + size, rank + size)`;
`__eq__` compares all three fields.
-/

structure Point where
  file : Int
  rank : Int
  size : Nat
deriving DecidableEq

/-- The `Point` constructor: `__post_init__` stores `abs(size)`. -/
def mkPoint (f r sz : Int) : Point := ⟨f, r, sz.natAbs⟩

/-- `Point.__hash__`: a hash of the tuple `(file + size, rank + size)`;
the tuple hash is modelled by an injective pairing of the components. -/
def Point.hashP (p : Point) : Nat :=
  Nat.pair (p.file + p.size).toNat (p.rank + p.size).toNat

/-- `Point.__bool__`: the point lies within the board boundaries. -/
def Point.boolP (p : Point) : Bool :=
  (-(p.size : Int) ≤ p.file && p.file ≤ (p.size : Int)) &&
  (-(p.size : Int) ≤ p.rank && p.rank ≤ (p.size : Int))

/-! ## Stones (`src/stone.py`, class `Stone`)

A stone pairs a point with a color.  `__hash__` hashes only the point,
`__eq__` and `__ne__` compare only the colors.
-/

structure Stone where
  point : Point
  color : Color

/-- `Stone.__hash__`: "Hash only based on intersection." -/
def Stone.hashS (s : Stone) : Nat := s.point.hashP

/-- `Stone.__eq__`: "Compare based on allegiance only." -/
def Stone.eqPy (s t : Stone) : Bool := Color.eqPy s.color t.color

/-- `Stone.__ne__`: "Compare based on allegiance only." -/
def Stone.nePy (s t : Stone) : Bool := Color.nePy s.color t.color

/-! ## Undirected graphs (`src/graph.py`)

A Python `dict[Node, set[Node]]` is a finite key set plus a neighborhood
function; `nbr` reads like `dict.__getitem__` guarded by membership, so the
function's values off the key set are irrelevant.  Methods that can raise
`KeyError` return `Option`.  The program only ever manipulates graphs through
the `Undirected` subclass (`Board` extends it), so the embedded `pop`, `add`
and `__setitem__` are the dynamically dispatched undirected versions.
-/

structure UGraph (V : Type) where
  keys : Finset V
  nbhd : V → Finset V

variable {V : Type} [DecidableEq V]

/-- The neighborhood stored for a key; absent nodes have no neighborhood. -/
def UGraph.nbr (g : UGraph V) (v : V) : Finset V :=
  if v ∈ g.keys then g.nbhd v else ∅

/-- A canonical iteration order for a Python set: sorted by encoding.
The source iterates sets in unspecified hash order. -/
def encLE {W : Type} [Encodable W] (a b : W) : Prop :=
  Encodable.encode a ≤ Encodable.encode b

instance {W : Type} [Encodable W] : DecidableRel (encLE : W → W → Prop) :=
  fun _ _ => Nat.decLe _ _

instance {W : Type} [Encodable W] : IsTrans W encLE :=
  ⟨fun _ _ _ h h2 => Nat.le_trans h h2⟩

instance {W : Type} [Encodable W] : IsAntisymm W encLE :=
  ⟨fun _ _ h h2 => Encodable.encode_injective (Nat.le_antisymm h h2)⟩

instance {W : Type} [Encodable W] : IsTotal W encLE :=
  ⟨fun _ _ => Nat.le_total _ _⟩

/-- Iterate a Python set: a list of its elements, in a canonical order (the
source iterates sets in unspecified hash order). -/
def iterL {W : Type} [Encodable W] [DecidableEq W] (s : Finset W) : List W :=
  Quot.lift (List.insertionSort encLE)
    (fun l1 l2 hp =>
      List.eq_of_perm_of_sorted
        ((List.perm_insertionSort encLE l1).trans
          (Trans.trans (hp : List.Perm l1 l2)
            (List.perm_insertionSort encLE l2).symm))
        (List.sorted_insertionSort encLE l1)
        (List.sorted_insertionSort encLE l2))
    s.val

theorem iterL_mem {W : Type} [Encodable W] [DecidableEq W] {s : Finset W}
    {a : W} : a ∈ iterL s ↔ a ∈ s := by
  change a ∈ Quot.lift _ _ s.val ↔ a ∈ s.val
  induction s.val using Quot.inductionOn with
  | _ l => exact (List.perm_insertionSort encLE l).mem_iff

theorem iterL_toFinset {W : Type} [Encodable W] [DecidableEq W]
    (s : Finset W) : (iterL s).toFinset = s := by
  ext a
  rw [List.mem_toFinset, iterL_mem]

theorem iterL_empty {W : Type} [Encodable W] [DecidableEq W] :
    iterL (∅ : Finset W) = [] := rfl

/-- `Undirected.add`: `self.setdefault(node).update(neighborhood)`, then
`self.setdefault(adjacent_node).add(node)` for each adjacent node —
note that a possible self-edge in `neighborhood` is NOT discarded here. -/
def UGraph.add (g : UGraph V) (node : V) (nb : Finset V) : UGraph V :=
  ⟨insert node g.keys ∪ nb,
   fun v =>
     (if v = node then g.nbr node ∪ nb else g.nbr v) ∪
       (if v ∈ nb then {node} else ∅)⟩

/-- `Undirected.pop`: `super().pop(node, default)` removes the entry (or
yields the default), then `super().__getitem__(adjacent_node).discard(node)`
for each member of the returned neighborhood; `__getitem__` raises
`KeyError` (here `none`) when an adjacent node is not a key. -/
def UGraph.pop (g : UGraph V) (node : V) (dflt : Finset V) :
    Option (Finset V × UGraph V) :=
  let nb := if node ∈ g.keys then g.nbr node else dflt
  let g1 : UGraph V :=
    if node ∈ g.keys then
      ⟨g.keys.erase node, fun v => if v = node then ∅ else g.nbr v⟩
    else g
  if nb ⊆ g1.keys then
    some (nb, ⟨g1.keys, fun v => if v ∈ nb then (g1.nbr v).erase node else g1.nbr v⟩)
  else none

/-- `Directed.__setitem__` as dispatched on an undirected graph: discard the
self-edge from the neighborhood, `self.pop(node)` (default empty), then
`self.add(node, neighborhood)`. -/
def UGraph.setitem (g : UGraph V) (node : V) (nb : Finset V) : Option (UGraph V) :=
  (g.pop node ∅).map (fun r => r.2.add node (nb.erase node))

/-- `Directed.update` (dispatching `add`): one `add` per item. -/
def UGraph.updateL (g : UGraph V) (items : List (V × Finset V)) : UGraph V :=
  items.foldl (fun h pr => h.add pr.1 pr.2) g

/-- Keys of a Python dict literal: first-occurrence order. -/
def dictKeys (d : List (V × Finset V)) : List V :=
  d.foldl (fun acc pr => if pr.1 ∈ acc then acc else acc ++ [pr.1]) []

/-- Value of a key in a Python dict literal: the last occurrence wins. -/
def dictVal (d : List (V × Finset V)) (v : V) : Finset V :=
  d.foldl (fun acc pr => if pr.1 = v then pr.2 else acc) ∅

/-- `Undirected.__init__` on a dict literal: the dict is built (duplicate
keys overwrite), `Directed.__init__` discards self-edges in place, and
`self.update(self.copy())` adds all missing symmetric edges. -/
def UGraph.init (d : List (V × Finset V)) : UGraph V :=
  let ks := dictKeys d
  let base : UGraph V :=
    ⟨ks.toFinset, fun v => if v ∈ ks.toFinset then (dictVal d v).erase v else ∅⟩
  base.updateL (ks.map (fun k => (k, (dictVal d k).erase k)))

/-- `Directed.boundary`: all nodes connected to the cluster but not in it
(the dict-level reading of `Nodes().union(*(self[node] for node in
cluster)).difference(cluster)`). -/
def UGraph.boundary (g : UGraph V) (cl : Finset V) : Finset V :=
  (cl.biUnion (fun n => g.nbr n)) \ cl

/-- The `for adjacent_node in neighborhood` loop inside `cluster`, abstracted
over the recursive call (`rec` is `cluster` at one depth less). -/
def clusterFoldW (rec : UGraph V → V → (V → Bool) → Option (Finset V × UGraph V)) :
    List V → UGraph V → (V → Bool) → Option (Finset V × UGraph V)
  | [], g, _ => some (∅, g)
  | a :: t, g, cond =>
    if cond a then
      match rec g a cond with
      | none => none
      | some (s, g1) =>
        match clusterFoldW rec t g1 cond with
        | none => none
        | some (acc, g2) => some (s ∪ acc, g2)
    else clusterFoldW rec t g cond

/-- `Directed.cluster` (with `pop`/`add` dispatched to the `Undirected`
overrides): pop the node, recurse into each popped neighbor satisfying the
condition, then stitch the graph back up.  The recursion carries explicit
fuel; `none` signals a Python `KeyError` or exhausted fuel (the Python
recursion is unbounded). -/
def clusterF [Encodable V] :
    Nat → UGraph V → V → (V → Bool) → Option (Finset V × UGraph V)
  | 0 => fun _ _ _ => none
  | f + 1 => fun g node cond =>
    match g.pop node ∅ with
    | none => none
    | some (nb, g1) =>
      match clusterFoldW (clusterF f) (iterL nb) g1 cond with
      | none => none
      | some (acc, g2) => some (insert node acc, g2.add node nb)

/-- The loop of `cluster` at a given remaining depth. -/
def clusterFold [Encodable V] (f : Nat) :
    List V → UGraph V → (V → Bool) → Option (Finset V × UGraph V) :=
  clusterFoldW (clusterF f)

/-- One `cluster` call as issued by `clusters`, with fuel sufficient for the
graph at hand. -/
def clusterRun [Encodable V] (g : UGraph V) (node : V) (cond : V → Bool) :
    Option (Finset V × UGraph V) :=
  clusterF (g.keys.card + 1) g node cond

/-- The `for node in self.copy()` loop of `clusters`: the node list is the
copy taken up front, while each `cluster` call runs on the current graph. -/
def clustersGo [Encodable V] :
    List V → UGraph V → (V → Bool) → Finset (Finset V) → Option (Finset (Finset V))
  | [], _, _, acc => some acc
  | n :: t, g, cond, acc =>
    match clusterRun g n cond with
    | none => none
    | some (s, g1) => clustersGo t g1 cond (insert s acc)

/-- `Directed.clusters`. -/
def UGraph.clusters [Encodable V] (g : UGraph V) (cond : V → Bool) :
    Option (Finset (Finset V)) :=
  clustersGo (iterL g.keys) g cond ∅

/-- Edge symmetry: the invariant claimed for undirected graphs. -/
def Symm (g : UGraph V) : Prop := ∀ n ∈ g.keys, ∀ m ∈ g.nbr n, n ∈ g.nbr m

/-- Every stored neighbor is itself a key. -/
def Closed (g : UGraph V) : Prop := ∀ n ∈ g.keys, g.nbr n ⊆ g.keys

/-- No node neighbors itself. -/
def NoSelf (g : UGraph V) : Prop := ∀ n ∈ g.keys, n ∉ g.nbr n

/-- The well-formedness the `Undirected` class is meant to maintain. -/
def WFU (g : UGraph V) : Prop := Symm g ∧ Closed g ∧ NoSelf g

instance (g : UGraph V) : Decidable (Symm g) := by
  unfold Symm; infer_instance

instance (g : UGraph V) : Decidable (Closed g) := by
  unfold Closed; infer_instance

instance (g : UGraph V) : Decidable (NoSelf g) := by
  unfold NoSelf; infer_instance

instance (g : UGraph V) : Decidable (WFU g) := by
  unfold WFU; infer_instance

/-! ### Characterizations of `add` and `pop` -/

theorem UGraph.add_keys (g : UGraph V) (node : V) (nb : Finset V) :
    (g.add node nb).keys = insert node g.keys ∪ nb := rfl

theorem UGraph.add_nbr (g : UGraph V) (node : V) (nb : Finset V) (v : V) :
    (g.add node nb).nbr v =
      (if v = node then g.nbr node ∪ nb else g.nbr v) ∪
        (if v ∈ nb then {node} else ∅) := by
  unfold UGraph.nbr UGraph.add
  by_cases h1 : v = node <;> by_cases h2 : v ∈ g.keys <;> by_cases h3 : v ∈ nb <;>
    simp [h1, h2, h3, UGraph.nbr]

theorem UGraph.mem_add_nbr (g : UGraph V) (node : V) (nb : Finset V) (v m : V) :
    m ∈ (g.add node nb).nbr v ↔
      m ∈ g.nbr v ∨ (v = node ∧ m ∈ nb) ∨ (v ∈ nb ∧ m = node) := by
  rw [UGraph.add_nbr]
  by_cases h1 : v = node
  · subst h1
    by_cases h3 : v ∈ nb <;> simp [h3] <;> tauto
  · by_cases h3 : v ∈ nb <;> simp [h1, h3] <;> tauto

theorem UGraph.pop_spec {g : UGraph V} {node : V} {dflt nb : Finset V}
    {g' : UGraph V} (h : g.pop node dflt = some (nb, g')) :
    nb = (if node ∈ g.keys then g.nbr node else dflt) ∧
    g'.keys = g.keys.erase node ∧
    nb ⊆ g'.keys ∧
    (∀ v, g'.nbr v =
      if v = node ∧ node ∈ g.keys then ∅
      else if v ∈ nb then (g.nbr v).erase node else g.nbr v) := by
  unfold UGraph.pop at h
  by_cases hk : node ∈ g.keys
  all_goals simp only [hk, if_true, if_false] at h
  · by_cases hsub : g.nbr node ⊆ g.keys.erase node
    · rw [if_pos hsub] at h
      simp only [Option.some.injEq, Prod.mk.injEq] at h
      obtain ⟨hnb, hg⟩ := h
      subst hnb
      refine ⟨by simp [hk], ?_, ?_, ?_⟩
      · rw [← hg]
      · rw [← hg]; exact hsub
      · intro v
        rw [← hg]
        show (if v ∈ g.keys.erase node then _ else ∅) = _
        by_cases hveq : v = node
        · subst hveq
          simp [hk, UGraph.nbr]
        · by_cases hvk : v ∈ g.keys
          · have hin : v ∈ g.keys.erase node := Finset.mem_erase.2 ⟨hveq, hvk⟩
            simp only [hin, if_true, hveq, false_and, if_false]
            by_cases hvnb : v ∈ g.nbr node <;>
              simp [hvnb, UGraph.nbr, hvk, hveq]
          · have hout : v ∉ g.keys.erase node :=
              fun hc => hvk (Finset.mem_of_mem_erase hc)
            have hnbr : g.nbr v = ∅ := by simp [UGraph.nbr, hvk]
            simp [hout, hveq, hnbr]
    · rw [if_neg hsub] at h
      exact absurd h (by simp)
  · by_cases hsub : dflt ⊆ g.keys
    · rw [if_pos hsub] at h
      simp only [Option.some.injEq, Prod.mk.injEq] at h
      obtain ⟨hnb, hg⟩ := h
      subst hnb
      have hkeys : g.keys.erase node = g.keys := Finset.erase_eq_of_not_mem hk
      refine ⟨by simp [hk], ?_, ?_, ?_⟩
      · rw [← hg, hkeys]
      · rw [← hg]; exact hsub
      · intro v
        rw [← hg]
        show (if v ∈ g.keys then _ else ∅) = _
        have hvne : ¬(v = node ∧ node ∈ g.keys) := fun hc => hk hc.2
        by_cases hvk : v ∈ g.keys
        · by_cases hvnb : v ∈ dflt <;> simp [hvk, hvne, hvnb, UGraph.nbr]
        · have hnbr : g.nbr v = ∅ := by simp [UGraph.nbr, hvk]
          simp [hvk, hvne, hnbr]
    · rw [if_neg hsub] at h
      exact absurd h (by simp)

/-- `pop` never fails on a well-formed graph (with the empty default). -/
theorem UGraph.pop_total {g : UGraph V} (hC : Closed g) (hS : NoSelf g)
    (node : V) : ∃ nb g', g.pop node ∅ = some (nb, g') := by
  unfold UGraph.pop
  by_cases hk : node ∈ g.keys
  · have hsub : g.nbr node ⊆ g.keys.erase node := by
      intro a ha
      exact Finset.mem_erase.2 ⟨fun hc => hS node hk (hc ▸ ha), hC node hk ha⟩
    simp only [hk, if_true]
    exact ⟨_, _, by rw [if_pos hsub]⟩
  · simp only [hk, if_false]
    exact ⟨_, _, by rw [if_pos (Finset.empty_subset _)]⟩

/-! ### Preservation of the undirected invariants -/

theorem symm_add {g : UGraph V} (hs : Symm g) (node : V) (nb : Finset V) :
    Symm (g.add node nb) := by
  intro n _ m hm
  rw [UGraph.mem_add_nbr] at hm
  rw [UGraph.mem_add_nbr]
  rcases hm with hm | ⟨rfl, hmnb⟩ | ⟨hnnb, rfl⟩
  · by_cases hk : n ∈ g.keys
    · exact Or.inl (hs n hk m hm)
    · rw [UGraph.nbr, if_neg hk] at hm
      exact absurd hm (Finset.not_mem_empty m)
  · exact Or.inr (Or.inr ⟨hmnb, rfl⟩)
  · exact Or.inr (Or.inl ⟨rfl, hnnb⟩)

theorem symm_pop {g : UGraph V} (hs : Symm g) {node : V} {dflt nb : Finset V}
    {g' : UGraph V} (h : g.pop node dflt = some (nb, g')) : Symm g' := by
  obtain ⟨hnbv, hkeys, _, hnbr⟩ := UGraph.pop_spec h
  intro n hn m hm
  rw [hkeys] at hn
  obtain ⟨hne, hnk⟩ := Finset.mem_erase.1 hn
  rw [hnbr n, if_neg (fun hc => hne hc.1)] at hm
  have hmg : m ∈ g.nbr n := by
    by_cases hnnb : n ∈ nb
    · rw [if_pos hnnb] at hm; exact Finset.mem_of_mem_erase hm
    · rwa [if_neg hnnb] at hm
  have hnm : n ∈ g.nbr m := hs n hnk m hmg
  rw [hnbr m]
  by_cases hmeq : m = node
  · subst hmeq
    exfalso
    by_cases hk : m ∈ g.keys
    · have hninnb : n ∈ nb := by rw [hnbv, if_pos hk]; exact hnm
      rw [if_pos hninnb] at hm
      exact (Finset.mem_erase.1 hm).1 rfl
    · have hempty : g.nbr m = ∅ := by rw [UGraph.nbr, if_neg hk]
      rw [hempty] at hnm
      exact Finset.not_mem_empty n hnm
  · rw [if_neg (fun hc => hmeq hc.1)]
    by_cases hmnb : m ∈ nb
    · rw [if_pos hmnb]
      exact Finset.mem_erase.2 ⟨hne, hnm⟩
    · rwa [if_neg hmnb]

theorem closed_add {g : UGraph V} (hc : Closed g) (node : V) (nb : Finset V) :
    Closed (g.add node nb) := by
  intro n _ m hm
  rw [UGraph.mem_add_nbr] at hm
  rw [UGraph.add_keys]
  rcases hm with hm | ⟨rfl, hmnb⟩ | ⟨hnnb, rfl⟩
  · by_cases hk : n ∈ g.keys
    · exact Finset.mem_union_left _ (Finset.mem_insert_of_mem (hc n hk hm))
    · rw [UGraph.nbr, if_neg hk] at hm
      exact absurd hm (Finset.not_mem_empty m)
  · exact Finset.mem_union_right _ hmnb
  · exact Finset.mem_union_left _ (Finset.mem_insert_self _ _)

theorem closed_pop {g : UGraph V} (hc : Closed g) (hs : Symm g) {node : V}
    {dflt nb : Finset V} {g' : UGraph V} (h : g.pop node dflt = some (nb, g')) :
    Closed g' := by
  obtain ⟨hnbv, hkeys, _, hnbr⟩ := UGraph.pop_spec h
  intro n hn m hm
  rw [hkeys] at hn
  obtain ⟨hne, hnk⟩ := Finset.mem_erase.1 hn
  rw [hnbr n, if_neg (fun hc2 => hne hc2.1)] at hm
  rw [hkeys]
  have hmg : m ∈ g.nbr n := by
    by_cases hnnb : n ∈ nb
    · rw [if_pos hnnb] at hm; exact Finset.mem_of_mem_erase hm
    · rwa [if_neg hnnb] at hm
  refine Finset.mem_erase.2 ⟨?_, hc n hnk hmg⟩
  intro hmeq
  subst hmeq
  by_cases hk : m ∈ g.keys
  · have hninnb : n ∈ nb := by rw [hnbv, if_pos hk]; exact hs n hnk m hmg
    rw [if_pos hninnb] at hm
    exact (Finset.mem_erase.1 hm).1 rfl
  · exact hk (hc n hnk hmg)

theorem noSelf_add {g : UGraph V} (hn : NoSelf g) {node : V} {nb : Finset V}
    (hno : node ∉ nb) : NoSelf (g.add node nb) := by
  intro n _ hmem
  rw [UGraph.mem_add_nbr] at hmem
  rcases hmem with hmem | ⟨rfl, hmnb⟩ | ⟨hnnb, rfl⟩
  · by_cases hk : n ∈ g.keys
    · exact hn n hk hmem
    · rw [UGraph.nbr, if_neg hk] at hmem
      exact Finset.not_mem_empty n hmem
  · exact hno hmnb
  · exact hno hnnb

theorem noSelf_pop {g : UGraph V} (hng : NoSelf g) {node : V}
    {dflt nb : Finset V} {g' : UGraph V} (h : g.pop node dflt = some (nb, g')) :
    NoSelf g' := by
  obtain ⟨_, hkeys, _, hnbr⟩ := UGraph.pop_spec h
  intro n hn hmem
  rw [hkeys] at hn
  obtain ⟨hne, hnk⟩ := Finset.mem_erase.1 hn
  rw [hnbr n, if_neg (fun hc => hne hc.1)] at hmem
  have hmg : n ∈ g.nbr n := by
    by_cases hnnb : n ∈ nb
    · rw [if_pos hnnb] at hmem; exact Finset.mem_of_mem_erase hmem
    · rwa [if_neg hnnb] at hmem
  exact hng n hnk hmg

theorem wfu_pop {g : UGraph V} (hw : WFU g) {node : V}
    {dflt nb : Finset V} {g' : UGraph V} (h : g.pop node dflt = some (nb, g')) :
    WFU g' :=
  ⟨symm_pop hw.1 h, closed_pop hw.2.1 hw.1 h, noSelf_pop hw.2.2 h⟩

theorem wfu_add {g : UGraph V} (hw : WFU g) {node : V} {nb : Finset V}
    (hno : node ∉ nb) : WFU (g.add node nb) :=
  ⟨symm_add hw.1 node nb, closed_add hw.2.1 node nb, noSelf_add hw.2.2 hno⟩

/-! ### The graph built by `Undirected.__init__` -/

theorem UGraph.updateL_mem_nbr (items : List (V × Finset V)) (g : UGraph V)
    (n m : V) :
    m ∈ (g.updateL items).nbr n ↔
      m ∈ g.nbr n ∨
        ∃ pr ∈ items, (n = pr.1 ∧ m ∈ pr.2) ∨ (n ∈ pr.2 ∧ m = pr.1) := by
  induction items generalizing g with
  | nil => simp [UGraph.updateL]
  | cons hd t ih =>
    show m ∈ ((g.add hd.1 hd.2).updateL t).nbr n ↔ _
    rw [ih, UGraph.mem_add_nbr]
    constructor
    · rintro ((hm | h2 | h3) | ⟨pr, hpr, hc⟩)
      · exact Or.inl hm
      · exact Or.inr ⟨hd, List.mem_cons_self hd t, Or.inl h2⟩
      · exact Or.inr ⟨hd, List.mem_cons_self hd t, Or.inr h3⟩
      · exact Or.inr ⟨pr, List.mem_cons_of_mem hd hpr, hc⟩
    · rintro (hm | ⟨pr, hpr, hc⟩)
      · exact Or.inl (Or.inl hm)
      · rcases List.mem_cons.1 hpr with rfl | hpr2
        · rcases hc with hc | hc
          · exact Or.inl (Or.inr (Or.inl hc))
          · exact Or.inl (Or.inr (Or.inr hc))
        · exact Or.inr ⟨pr, hpr2, hc⟩

/-- The symmetric, self-edge-free membership relation realized by
`Undirected.__init__` on a dict literal. -/
def initEdge (d : List (V × Finset V)) (n m : V) : Prop :=
  (n ∈ dictKeys d ∧ m ∈ (dictVal d n).erase n) ∨
    (m ∈ dictKeys d ∧ n ∈ (dictVal d m).erase m)

theorem UGraph.init_mem_nbr (d : List (V × Finset V)) (n m : V) :
    m ∈ (UGraph.init d).nbr n ↔ initEdge d n m := by
  unfold UGraph.init initEdge
  rw [UGraph.updateL_mem_nbr]
  constructor
  · rintro (hbase | ⟨pr, hpr, hc⟩)
    · rw [UGraph.nbr] at hbase
      by_cases hk : n ∈ (dictKeys d).toFinset
      · rw [if_pos hk] at hbase
        simp only [hk, if_true] at hbase
        exact Or.inl ⟨List.mem_toFinset.1 hk, hbase⟩
      · rw [if_neg hk] at hbase
        exact absurd hbase (Finset.not_mem_empty m)
    · obtain ⟨k, hk, rfl⟩ := List.mem_map.1 hpr
      rcases hc with ⟨rfl, hm⟩ | ⟨hnk, rfl⟩
      · exact Or.inl ⟨hk, hm⟩
      · exact Or.inr ⟨hk, hnk⟩
  · rintro (⟨hk, hm⟩ | ⟨hk, hm⟩)
    · exact Or.inr ⟨(n, (dictVal d n).erase n),
        List.mem_map.2 ⟨n, hk, rfl⟩, Or.inl ⟨rfl, hm⟩⟩
    · exact Or.inr ⟨(m, (dictVal d m).erase m),
        List.mem_map.2 ⟨m, hk, rfl⟩, Or.inr ⟨hm, rfl⟩⟩

theorem symm_init (d : List (V × Finset V)) : Symm (UGraph.init d) := by
  intro n _ m hm
  rw [UGraph.init_mem_nbr] at hm
  rw [UGraph.init_mem_nbr]
  unfold initEdge at hm ⊢
  tauto

theorem noSelf_init (d : List (V × Finset V)) : NoSelf (UGraph.init d) := by
  intro n _ hmem
  rw [UGraph.init_mem_nbr] at hmem
  rcases hmem with ⟨_, hm⟩ | ⟨_, hm⟩ <;>
    exact (Finset.mem_erase.1 hm).1 rfl

/-- The graphs reachable through the `Undirected` interface: construction
from any dict literal, followed by any sequence of `add` and (successful)
`pop` operations. -/
inductive Reach : UGraph V → Prop where
  | init (d : List (V × Finset V)) : Reach (UGraph.init d)
  | add (g : UGraph V) (node : V) (nb : Finset V) :
      Reach g → Reach (g.add node nb)
  | pop (g : UGraph V) (node : V) (dflt nb : Finset V) (g' : UGraph V) :
      Reach g → g.pop node dflt = some (nb, g') → Reach g'

/-! ### Behavior of `cluster` and `clusters` -/

section Cluster

variable [Encodable V]

theorem clusterF_zero (g : UGraph V) (n : V) (c : V → Bool) :
    clusterF 0 g n c = none := rfl

theorem clusterF_succ (f : ℕ) (g : UGraph V) (n : V) (c : V → Bool) :
    clusterF (f + 1) g n c =
      match g.pop n ∅ with
      | none => none
      | some (nb, g1) =>
        match clusterFold f (iterL nb) g1 c with
        | none => none
        | some (acc, g2) => some (insert n acc, g2.add n nb) := rfl

theorem clusterFold_nil (f : ℕ) (g : UGraph V) (c : V → Bool) :
    clusterFold f [] g c = some (∅, g) := rfl

theorem clusterFold_cons (f : ℕ) (a : V) (t : List V) (g : UGraph V)
    (c : V → Bool) :
    clusterFold f (a :: t) g c =
      if c a then
        match clusterF f g a c with
        | none => none
        | some (s, g1) =>
          match clusterFold f t g1 c with
          | none => none
          | some (acc, g2) => some (s ∪ acc, g2)
      else clusterFold f t g c := rfl

/-- The root always belongs to its own cluster. -/
theorem clusterF_root {f : ℕ} {g : UGraph V} {n : V} {c : V → Bool}
    {r : Finset V × UGraph V} (h : clusterF f g n c = some r) : n ∈ r.1 := by
  cases f with
  | zero => rw [clusterF_zero] at h; exact absurd h (by simp)
  | succ f =>
    rw [clusterF_succ] at h
    cases hpop : g.pop n ∅ with
    | none => rw [hpop] at h; exact absurd h (by simp)
    | some p =>
      rw [hpop] at h
      cases hfold : clusterFold f (iterL p.1) p.2 c with
      | none => simp only [hfold] at h; exact absurd h (by simp)
      | some q =>
        simp only [hfold] at h
        obtain ⟨h1, _⟩ := Prod.mk.injEq _ _ _ _ ▸ Option.some.inj h
        rw [← h1]
        exact Finset.mem_insert_self _ _

/-- Everything a `cluster` call touches stays within the original keys plus
the root; so does the key set of the graph it hands back. -/
theorem clusterF_subset :
    ∀ f : ℕ,
      (∀ (g : UGraph V) (n : V) (c : V → Bool) (r : Finset V × UGraph V),
        clusterF f g n c = some r →
          r.1 ⊆ insert n g.keys ∧ r.2.keys ⊆ insert n g.keys) ∧
      (∀ (l : List V) (g : UGraph V) (c : V → Bool) (r : Finset V × UGraph V),
        clusterFold f l g c = some r →
          r.1 ⊆ g.keys ∪ l.toFinset ∧ r.2.keys ⊆ g.keys ∪ l.toFinset) := by
  intro f
  induction f with
  | zero =>
    constructor
    · intro g n c r h
      rw [clusterF_zero] at h
      exact absurd h (by simp)
    · intro l
      induction l with
      | nil =>
        intro g c r h
        rw [clusterFold_nil] at h
        obtain ⟨h1, h2⟩ := Prod.mk.injEq _ _ _ _ ▸ Option.some.inj h
        rw [← h1, ← h2]
        exact ⟨by simp, by simp⟩
      | cons a t ih =>
        intro g c r h
        rw [clusterFold_cons] at h
        by_cases hc : c a
        · rw [if_pos hc, clusterF_zero] at h
          exact absurd h (by simp)
        · rw [if_neg hc] at h
          obtain ⟨h1, h2⟩ := ih g c r h
          refine ⟨h1.trans ?_, h2.trans ?_⟩ <;>
            · intro x hx
              rcases Finset.mem_union.1 hx with hx | hx
              · exact Finset.mem_union_left _ hx
              · exact Finset.mem_union_right _ (by simp [List.mem_toFinset.1 hx])
  | succ f ihf =>
    have hF : ∀ (g : UGraph V) (n : V) (c : V → Bool) (r : Finset V × UGraph V),
        clusterF (f + 1) g n c = some r →
          r.1 ⊆ insert n g.keys ∧ r.2.keys ⊆ insert n g.keys := by
      intro g n c r h
      rw [clusterF_succ] at h
      cases hpop : g.pop n ∅ with
      | none => rw [hpop] at h; exact absurd h (by simp)
      | some p =>
        rw [hpop] at h
        cases hfold : clusterFold f (iterL p.1) p.2 c with
        | none => simp only [hfold] at h; exact absurd h (by simp)
        | some q =>
          simp only [hfold] at h
          obtain ⟨h1, h2⟩ := Prod.mk.injEq _ _ _ _ ▸ Option.some.inj h
          obtain ⟨_, hkeys, hsub, _⟩ := UGraph.pop_spec hpop
          obtain ⟨hq1, hq2⟩ := ihf.2 _ _ _ _ hfold
          have hp2 : p.2.keys ⊆ g.keys := hkeys ▸ Finset.erase_subset _ _
          have hnb : p.1 ⊆ g.keys := hsub.trans hp2
          have hl : (iterL p.1).toFinset ⊆ g.keys := by
            intro x hx
            exact hnb (by
              have := List.mem_toFinset.1 hx
              rwa [iterL_mem] at this)
          have hq1' : q.1 ⊆ g.keys := hq1.trans (by
            intro x hx
            rcases Finset.mem_union.1 hx with hx | hx
            · exact hp2 hx
            · exact hl hx)
          have hq2' : q.2.keys ⊆ g.keys := hq2.trans (by
            intro x hx
            rcases Finset.mem_union.1 hx with hx | hx
            · exact hp2 hx
            · exact hl hx)
          constructor
          · rw [← h1]
            intro x hx
            rcases Finset.mem_insert.1 hx with rfl | hx
            · exact Finset.mem_insert_self _ _
            · exact Finset.mem_insert_of_mem (hq1' hx)
          · rw [← h2, UGraph.add_keys]
            intro x hx
            rcases Finset.mem_union.1 hx with hx | hx
            · rcases Finset.mem_insert.1 hx with rfl | hx
              · exact Finset.mem_insert_self _ _
              · exact Finset.mem_insert_of_mem (hq2' hx)
            · exact Finset.mem_insert_of_mem (hnb hx)
    refine ⟨hF, ?_⟩
    intro l
    induction l with
    | nil =>
      intro g c r h
      rw [clusterFold_nil] at h
      obtain ⟨h1, h2⟩ := Prod.mk.injEq _ _ _ _ ▸ Option.some.inj h
      rw [← h1, ← h2]
      exact ⟨by simp, by simp⟩
    | cons a t ih =>
      intro g c r h
      rw [clusterFold_cons] at h
      have hsplit : ∀ x, x ∈ insert a g.keys → x ∈ g.keys ∪ (a :: t).toFinset := by
        intro x hx
        rcases Finset.mem_insert.1 hx with rfl | hx
        · exact Finset.mem_union_right _ (by simp)
        · exact Finset.mem_union_left _ hx
      by_cases hc : c a
      · rw [if_pos hc] at h
        cases hcf : clusterF (f + 1) g a c with
        | none => rw [hcf] at h; exact absurd h (by simp)
        | some p =>
          rw [hcf] at h
          cases hfold : clusterFold (f + 1) t p.2 c with
          | none => simp only [hfold] at h; exact absurd h (by simp)
          | some q =>
            simp only [hfold] at h
            obtain ⟨h1, h2⟩ := Prod.mk.injEq _ _ _ _ ▸ Option.some.inj h
            obtain ⟨hp1, hp2⟩ := hF _ _ _ _ hcf
            obtain ⟨hq1, hq2⟩ := ih _ _ _ hfold
            have hstep : ∀ x, x ∈ p.2.keys ∪ t.toFinset →
                x ∈ g.keys ∪ (a :: t).toFinset := by
              intro x hx
              rcases Finset.mem_union.1 hx with hx | hx
              · exact hsplit x (hp2 hx)
              · exact Finset.mem_union_right _ (by
                  simp [List.mem_toFinset.1 hx])
            constructor
            · rw [← h1]
              intro x hx
              rcases Finset.mem_union.1 hx with hx | hx
              · exact hsplit x (hp1 hx)
              · exact hstep x (hq1 hx)
            · rw [← h2]
              intro x hx
              exact hstep x (hq2 hx)
      · rw [if_neg hc] at h
        obtain ⟨h1, h2⟩ := ih _ _ _ h
        have hmono : ∀ x, x ∈ g.keys ∪ t.toFinset →
            x ∈ g.keys ∪ (a :: t).toFinset := by
          intro x hx
          rcases Finset.mem_union.1 hx with hx | hx
          · exact Finset.mem_union_left _ hx
          · exact Finset.mem_union_right _ (by simp [List.mem_toFinset.1 hx])
        exact ⟨fun x hx => hmono x (h1 hx), fun x hx => hmono x (h2 hx)⟩

/-- `cluster` hands back a well-formed graph whenever it gets one. -/
theorem clusterF_wfu :
    ∀ f : ℕ,
      (∀ {g : UGraph V} {n : V} {c : V → Bool} {r : Finset V × UGraph V},
        WFU g → clusterF f g n c = some r → WFU r.2) ∧
      (∀ {l : List V} {g : UGraph V} {c : V → Bool} {r : Finset V × UGraph V},
        WFU g → clusterFold f l g c = some r → WFU r.2) := by
  intro f
  induction f with
  | zero =>
    constructor
    · intro g n c r hw h
      rw [clusterF_zero] at h
      exact absurd h (by simp)
    · intro l
      induction l with
      | nil =>
        intro g c r hw h
        rw [clusterFold_nil] at h
        obtain ⟨_, h2⟩ := Prod.mk.injEq _ _ _ _ ▸ Option.some.inj h
        rwa [← h2]
      | cons a t ih =>
        intro g c r hw h
        rw [clusterFold_cons] at h
        by_cases hc : c a
        · rw [if_pos hc, clusterF_zero] at h
          exact absurd h (by simp)
        · rw [if_neg hc] at h
          exact ih hw h
  | succ f ihf =>
    have hF : ∀ {g : UGraph V} {n : V} {c : V → Bool} {r : Finset V × UGraph V},
        WFU g → clusterF (f + 1) g n c = some r → WFU r.2 := by
      intro g n c r hw h
      rw [clusterF_succ] at h
      cases hpop : g.pop n ∅ with
      | none => rw [hpop] at h; exact absurd h (by simp)
      | some p =>
        rw [hpop] at h
        cases hfold : clusterFold f (iterL p.1) p.2 c with
        | none => simp only [hfold] at h; exact absurd h (by simp)
        | some q =>
          simp only [hfold] at h
          obtain ⟨_, h2⟩ := Prod.mk.injEq _ _ _ _ ▸ Option.some.inj h
          obtain ⟨_, hkeys, hsub, _⟩ := UGraph.pop_spec hpop
          have hw1 : WFU p.2 := wfu_pop hw hpop
          have hw2 : WFU q.2 := ihf.2 hw1 hfold
          have hno : n ∉ p.1 := by
            intro hc
            have := hsub hc
            rw [hkeys] at this
            exact (Finset.mem_erase.1 this).1 rfl
          rw [← h2]
          exact wfu_add hw2 hno
    refine ⟨hF, ?_⟩
    intro l
    induction l with
    | nil =>
      intro g c r hw h
      rw [clusterFold_nil] at h
      obtain ⟨_, h2⟩ := Prod.mk.injEq _ _ _ _ ▸ Option.some.inj h
      rwa [← h2]
    | cons a t ih =>
      intro g c r hw h
      rw [clusterFold_cons] at h
      by_cases hc : c a
      · rw [if_pos hc] at h
        cases hcf : clusterF (f + 1) g a c with
        | none => rw [hcf] at h; exact absurd h (by simp)
        | some p =>
          rw [hcf] at h
          cases hfold : clusterFold (f + 1) t p.2 c with
          | none => simp only [hfold] at h; exact absurd h (by simp)
          | some q =>
            simp only [hfold] at h
            obtain ⟨_, h2⟩ := Prod.mk.injEq _ _ _ _ ▸ Option.some.inj h
            have hw1 : WFU p.2 := hF hw hcf
            have hw2 : WFU q.2 := ih hw1 hfold
            rwa [← h2]
      · rw [if_neg hc] at h
        exact ih hw h

/-- With enough fuel, `cluster` always completes on a well-formed graph: the
embedded fuel never cuts the Python recursion short. -/
theorem clusterF_total :
    ∀ f : ℕ,
      (∀ (g : UGraph V) (n : V) (c : V → Bool), WFU g → g.keys.card < f →
        ∃ r, clusterF f g n c = some r) ∧
      (∀ (l : List V) (g : UGraph V) (c : V → Bool) (K : Finset V), WFU g →
        g.keys ⊆ K → l.toFinset ⊆ K → K.card < f →
        ∃ r, clusterFold f l g c = some r) := by
  intro f
  induction f with
  | zero =>
    exact ⟨fun g n c _ hlt => absurd hlt (Nat.not_lt_zero _),
      fun l g c K _ _ _ hlt => absurd hlt (Nat.not_lt_zero _)⟩
  | succ f ihf =>
    have hF : ∀ (g : UGraph V) (n : V) (c : V → Bool), WFU g →
        g.keys.card < f + 1 → ∃ r, clusterF (f + 1) g n c = some r := by
      intro g n c hw hcard
      obtain ⟨nb, g1, hpop⟩ := UGraph.pop_total hw.2.1 hw.2.2 n
      obtain ⟨hnb, hkeys, hsub, _⟩ := UGraph.pop_spec hpop
      by_cases hk : n ∈ g.keys
      · have hc1 : g1.keys.card < f := by
          rw [hkeys, Finset.card_erase_of_mem hk]
          have h1 : 1 ≤ g.keys.card := Finset.card_pos.2 ⟨n, hk⟩
          omega
        have hw1 : WFU g1 := wfu_pop hw hpop
        have hl : (iterL nb).toFinset ⊆ g1.keys := by
          intro x hx
          refine hsub ?_
          have := List.mem_toFinset.1 hx
          rwa [iterL_mem] at this
        obtain ⟨q, hfold⟩ :=
          ihf.2 (iterL nb) g1 c g1.keys hw1 (fun x hx => hx) hl hc1
        refine ⟨(insert n q.1, q.2.add n nb), ?_⟩
        rw [clusterF_succ, hpop]
        simp only [hfold]
      · have hnbe : nb = ∅ := by rw [hnb, if_neg hk]
        refine ⟨(insert n ∅, g1.add n nb), ?_⟩
        rw [clusterF_succ, hpop]
        simp only [hnbe, iterL_empty, clusterFold_nil]
    refine ⟨hF, ?_⟩
    intro l
    induction l with
    | nil => exact fun g c K _ _ _ _ => ⟨(∅, g), clusterFold_nil _ _ _⟩
    | cons a t ih =>
      intro g c K hw hk hl hcard
      by_cases hc : c a
      · obtain ⟨p, hp⟩ := hF g a c hw
          (Nat.lt_of_le_of_lt (Finset.card_le_card hk) hcard)
        have hw1 : WFU p.2 := (clusterF_wfu (f + 1)).1 hw hp
        have hp2K : p.2.keys ⊆ K := by
          refine ((clusterF_subset (f + 1)).1 _ _ _ _ hp).2.trans ?_
          intro x hx
          rcases Finset.mem_insert.1 hx with rfl | hx
          · exact hl (by simp)
          · exact hk hx
        have htK : t.toFinset ⊆ K := fun x hx =>
          hl (by simp [List.mem_toFinset.1 hx])
        obtain ⟨q, hq⟩ := ih p.2 c K hw1 hp2K htK hcard
        refine ⟨(p.1 ∪ q.1, q.2), ?_⟩
        rw [clusterFold_cons, if_pos hc, hp]
        simp only [hq]
      · obtain ⟨q, hq⟩ := ih g c K hw hk
          (fun x hx => hl (by simp [List.mem_toFinset.1 hx])) hcard
        exact ⟨q, by rw [clusterFold_cons, if_neg hc]; exact hq⟩

theorem clustersGo_cons (n : V) (t : List V) (g : UGraph V)
    (c : V → Bool) (acc : Finset (Finset V)) :
    clustersGo (n :: t) g c acc =
      match clusterRun g n c with
      | none => none
      | some (s, g1) => clustersGo t g1 c (insert s acc) := rfl

/-- On a well-formed graph `clusters` succeeds, every cluster it returns is
within the key set (or was already accumulated), and every listed node is
covered by some returned cluster. -/
theorem clustersGo_spec (c : V → Bool) :
    ∀ (l : List V) (g : UGraph V) (acc : Finset (Finset V)) (K : Finset V),
      WFU g → g.keys ⊆ K → l.toFinset ⊆ K →
      ∃ res, clustersGo l g c acc = some res ∧ acc ⊆ res ∧
        (∀ s ∈ res, s ∈ acc ∨ s ⊆ K) ∧ (∀ n ∈ l, ∃ s ∈ res, n ∈ s) := by
  intro l
  induction l with
  | nil =>
    intro g acc K _ _ _
    exact ⟨acc, rfl, fun s hs => hs, fun s hs => Or.inl hs, by simp⟩
  | cons n t ih =>
    intro g acc K hw hk hl
    obtain ⟨r, hr⟩ :=
      (clusterF_total (g.keys.card + 1)).1 g n c hw (Nat.lt_succ_self _)
    obtain ⟨s, g1⟩ := r
    have hwr : WFU g1 := (clusterF_wfu _).1 hw hr
    obtain ⟨hs1, hs2⟩ := (clusterF_subset _).1 _ _ _ _ hr
    have hnK : n ∈ K := hl (by simp)
    have hinsK : insert n g.keys ⊆ K := by
      intro x hx
      rcases Finset.mem_insert.1 hx with rfl | hx
      · exact hnK
      · exact hk hx
    have hkeys1 : g1.keys ⊆ K := hs2.trans hinsK
    have hsK : s ⊆ K := hs1.trans hinsK
    have htK : t.toFinset ⊆ K := fun x hx =>
      hl (by simp [List.mem_toFinset.1 hx])
    obtain ⟨res, hres, hacc, hresK, hcov⟩ :=
      ih g1 (insert s acc) K hwr hkeys1 htK
    refine ⟨res, ?_, ?_, ?_, ?_⟩
    · rw [clustersGo_cons, show clusterRun g n c = some (s, g1) from hr]
      exact hres
    · exact fun x hx => hacc (Finset.mem_insert_of_mem hx)
    · intro x hx
      rcases hresK x hx with hx2 | hx2
      · rcases Finset.mem_insert.1 hx2 with rfl | hx3
        · exact Or.inr hsK
        · exact Or.inl hx3
      · exact Or.inr hx2
    · intro m hm
      rcases List.mem_cons.1 hm with rfl | hm2
      · exact ⟨s, hacc (Finset.mem_insert_self _ _), clusterF_root hr⟩
      · exact hcov m hm2

/-- Under a constantly-false condition `cluster` returns the bare root. -/
theorem clusterFold_false (f : ℕ) :
    ∀ (l : List V) (g : UGraph V),
      clusterFold f l g (fun _ => false) = some (∅, g) := by
  intro l
  induction l with
  | nil => intro g; exact clusterFold_nil _ _ _
  | cons a t ih =>
    intro g
    rw [clusterFold_cons, if_neg (by simp)]
    exact ih g

theorem clusterF_false {f : ℕ} {g : UGraph V} (hw : WFU g) (n : V) :
    ∃ g', clusterF (f + 1) g n (fun _ => false) = some ({n}, g') := by
  obtain ⟨nb, g1, hpop⟩ := UGraph.pop_total hw.2.1 hw.2.2 n
  refine ⟨g1.add n nb, ?_⟩
  rw [clusterF_succ, hpop]
  simp [clusterFold_false]

theorem clustersGo_false :
    ∀ (l : List V) (g : UGraph V) (acc : Finset (Finset V)), WFU g →
      clustersGo l g (fun _ => false) acc =
        some (acc ∪ l.toFinset.image (fun n => ({n} : Finset V))) := by
  intro l
  induction l with
  | nil =>
    intro g acc _
    show some acc = _
    simp
  | cons n t ih =>
    intro g acc hw
    obtain ⟨g', hg'⟩ := clusterF_false (g := g) hw n
    have hwr : WFU g' := (clusterF_wfu (g.keys.card + 1)).1 hw hg'
    rw [clustersGo_cons, show clusterRun g n (fun _ => false) = some ({n}, g') from hg']
    show clustersGo t g' (fun _ => false) (insert {n} acc) = _
    rw [ih g' (insert {n} acc) hwr]
    refine congrArg some ?_
    have hcons : (n :: t).toFinset = insert n t.toFinset := by
      ext y; simp
    rw [hcons, Finset.image_insert]
    ext x
    by_cases hx : x ∈ acc <;>
      by_cases hy : x ∈ Finset.image (fun m => ({m} : Finset V)) t.toFinset <;>
        simp [hx, hy]

end Cluster

/-- `NoSelf` lifted over a fallible operation: every graph the operation can
hand back is self-edge-free. -/
def NoSelfAfter (og : Option (UGraph V)) : Prop := ∀ g ∈ og, NoSelf g

/-! ## The board graph (`src/board.py`, `Board.__init__`)

Stones are the nodes of the board's undirected graph.  They are keyed (hashed)
by their intersection while their color is a mutable cell, so the graph
structure is captured by the coordinates alone; colors live in a separate
per-intersection assignment (`GBoard` below).  Within one board every stone
carries the same `size`, so a node is just the pair `(file, rank)`. -/

/-- A board intersection. -/
abbrev Pt := Int × Int

/-- `Point.__bool__` for half-extent `s`: the intersection is in bounds. -/
def inB (s : ℕ) (p : Pt) : Prop :=
  -(s : Int) ≤ p.1 ∧ p.1 ≤ (s : Int) ∧ -(s : Int) ≤ p.2 ∧ p.2 ≤ (s : Int)

instance (s : ℕ) (p : Pt) : Decidable (inB s p) := by
  unfold inB; infer_instance

/-- `self.range`: `-size .. size`. -/
def rangeL (s : ℕ) : List Int :=
  (List.range (2 * s + 1)).map (fun (i : ℕ) => (i : Int) - (s : Int))

/-- The intersections in the order `Board.__init__` creates them:
`for rank in self.range: for file in self.range`. -/
def ptsList (s : ℕ) : List Pt :=
  (rangeL s).flatMap (fun r => (rangeL s).map (fun f => ((f, r) : Pt)))

/-- The board's node set. -/
def allPts (s : ℕ) : Finset Pt := (ptsList s).toFinset

/-- `Stone.adjacencies`: east, north, west, south. -/
def adjacencies : List Pt := [(1, 0), (0, 1), (-1, 0), (0, -1)]

/-- The neighborhood the second `__init__` loop wires for a stone: the four
orthogonal offsets, kept when `stone + adjacent_point` is in bounds. -/
def Npt (s : ℕ) (p : Pt) : Finset Pt :=
  ((adjacencies.map (fun a => ((p.1 + a.1, p.2 + a.2) : Pt))).filter
    (fun q => inB s q)).toFinset

/-- First construction loop: every intersection is added blank
(`super().__setitem__(stone)`, no neighborhood). -/
def boardBlank (s : ℕ) : Option (UGraph Pt) :=
  (ptsList s).foldl (fun og p => og.bind (fun g => g.setitem p ∅))
    (some ⟨∅, fun _ => ∅⟩)

/-- Second construction loop: every intersection is rewired to its in-bounds
orthogonal neighbors (`super().__setitem__(stone, neighborhood)`). -/
def boardGraphO (s : ℕ) : Option (UGraph Pt) :=
  (ptsList s).foldl (fun og p => og.bind (fun g => g.setitem p (Npt s p)))
    (boardBlank s)

/-- The board's adjacency graph (construction is proved to succeed). -/
def theBoardGraph (s : ℕ) : UGraph Pt := (boardGraphO s).getD ⟨∅, fun _ => ∅⟩

theorem mem_rangeL {s : ℕ} {x : Int} :
    x ∈ rangeL s ↔ -(s : Int) ≤ x ∧ x ≤ (s : Int) := by
  unfold rangeL
  simp only [List.mem_map, List.mem_range]
  constructor
  · rintro ⟨i, hi, rfl⟩
    omega
  · intro ⟨h1, h2⟩
    exact ⟨(x + (s : Int)).toNat, by omega, by omega⟩

theorem mem_ptsList {s : ℕ} {p : Pt} : p ∈ ptsList s ↔ inB s p := by
  unfold ptsList inB
  simp only [List.mem_flatMap, List.mem_map]
  constructor
  · rintro ⟨r, hr, f, hf, rfl⟩
    obtain ⟨h1, h2⟩ := mem_rangeL.1 hr
    obtain ⟨h3, h4⟩ := mem_rangeL.1 hf
    exact ⟨h3, h4, h1, h2⟩
  · rintro ⟨h1, h2, h3, h4⟩
    exact ⟨p.2, mem_rangeL.2 ⟨h3, h4⟩, p.1, mem_rangeL.2 ⟨h1, h2⟩, rfl⟩

theorem mem_allPts {s : ℕ} {p : Pt} : p ∈ allPts s ↔ inB s p := by
  rw [allPts, List.mem_toFinset, mem_ptsList]

theorem nodup_rangeL (s : ℕ) : (rangeL s).Nodup := by
  refine List.Nodup.map ?_ (List.nodup_range _)
  intro a b hab
  have h2 : (a : Int) - (s : Int) = (b : Int) - (s : Int) := hab
  omega

theorem nodup_ptsList (s : ℕ) : (ptsList s).Nodup := by
  rw [ptsList, List.nodup_flatMap]
  constructor
  · intro r _
    refine List.Nodup.map ?_ (nodup_rangeL s)
    intro a b hab
    exact congrArg Prod.fst hab
  · refine List.Pairwise.imp ?_ ((nodup_rangeL s).pairwise_of_forall_ne
      (fun a _ b _ h => h))
    intro r1 r2 hne
    simp only [Function.onFun]
    rw [List.disjoint_left]
    intro p hp1 hp2
    obtain ⟨f1, _, rfl⟩ := List.mem_map.1 hp1
    obtain ⟨f2, _, heq⟩ := List.mem_map.1 hp2
    exact hne (by simpa using (congrArg Prod.snd heq).symm)

theorem length_rangeL (s : ℕ) : (rangeL s).length = 2 * s + 1 := by
  rw [rangeL, List.length_map, List.length_range]

theorem length_ptsList (s : ℕ) :
    (ptsList s).length = (2 * s + 1) * (2 * s + 1) := by
  rw [ptsList]
  have haux : ∀ L : List Int,
      (L.flatMap (fun r => (rangeL s).map (fun f => ((f, r) : Pt)))).length =
        L.length * (2 * s + 1) := by
    intro L
    induction L with
    | nil => simp
    | cons a t ih =>
      rw [List.flatMap_cons, List.length_append, List.length_map, ih,
        length_rangeL, List.length_cons]
      ring
  rw [haux, length_rangeL]

theorem card_allPts (s : ℕ) : (allPts s).card = (2 * s + 1) ^ 2 := by
  rw [allPts, List.toFinset_card_of_nodup (nodup_ptsList s), length_ptsList]
  ring

/-- Membership in the wired neighborhood. -/
theorem mem_Npt {s : ℕ} {p q : Pt} :
    q ∈ Npt s p ↔ inB s q ∧ ((q.1 - p.1, q.2 - p.2) : Pt) ∈ adjacencies := by
  rw [Npt, List.mem_toFinset, List.mem_filter]
  simp only [List.mem_map, decide_eq_true_eq]
  constructor
  · rintro ⟨⟨a, ha, rfl⟩, hq⟩
    refine ⟨hq, ?_⟩
    have heq : ((p.1 + a.1 - p.1, p.2 + a.2 - p.2) : Pt) = a :=
      Prod.ext_iff.2 ⟨by ring, by ring⟩
    rw [heq]
    exact ha
  · rintro ⟨hq, ha⟩
    exact ⟨⟨(q.1 - p.1, q.2 - p.2), ha,
      Prod.ext_iff.2 ⟨by ring, by ring⟩⟩, hq⟩

theorem Npt_subset_allPts {s : ℕ} (p : Pt) : Npt s p ⊆ allPts s := by
  intro q hq
  exact mem_allPts.2 (mem_Npt.1 hq).1

theorem not_mem_Npt_self {s : ℕ} (p : Pt) : p ∉ Npt s p := by
  intro h
  have := (mem_Npt.1 h).2
  simp [adjacencies, Prod.ext_iff] at this

theorem Npt_symm {s : ℕ} {p q : Pt} (hp : inB s p) (hq : q ∈ Npt s p) :
    p ∈ Npt s q := by
  obtain ⟨hqb, hoff⟩ := mem_Npt.1 hq
  refine mem_Npt.2 ⟨hp, ?_⟩
  simp only [adjacencies, List.mem_cons, List.not_mem_nil, or_false,
    Prod.ext_iff] at hoff ⊢
  rcases hoff with ⟨h1, h2⟩ | ⟨h1, h2⟩ | ⟨h1, h2⟩ | ⟨h1, h2⟩
  · exact Or.inr (Or.inr (Or.inl ⟨by omega, by omega⟩))
  · exact Or.inr (Or.inr (Or.inr ⟨by omega, by omega⟩))
  · exact Or.inl ⟨by omega, by omega⟩
  · exact Or.inr (Or.inl ⟨by omega, by omega⟩)

/-- One blank `__setitem__` during the first construction loop. -/
theorem setitem_blank {g : UGraph Pt} {K : Finset Pt}
    (hkeys : g.keys = K) (hnbr : ∀ v, g.nbr v = ∅) (p : Pt) :
    ∃ g', g.setitem p ∅ = some g' ∧ g'.keys = insert p K ∧
      ∀ v, g'.nbr v = ∅ := by
  have hC : Closed g := fun n _ m hm => by rw [hnbr n] at hm; exact absurd hm (Finset.not_mem_empty m)
  have hS : NoSelf g := fun n _ hm => by rw [hnbr n] at hm; exact Finset.not_mem_empty n hm
  obtain ⟨nb, g1, hpop⟩ := UGraph.pop_total hC hS p
  obtain ⟨hnb, hkeys1, _, hnbr1⟩ := UGraph.pop_spec hpop
  have hnbe : nb = ∅ := by
    rw [hnb]
    by_cases hk : p ∈ g.keys <;> simp [hk, hnbr p]
  have hnbr1e : ∀ v, g1.nbr v = ∅ := by
    intro v
    rw [hnbr1 v]
    by_cases h1 : v = p ∧ p ∈ g.keys
    · rw [if_pos h1]
    · rw [if_neg h1]
      by_cases h2 : v ∈ nb <;> simp [h2, hnbr v]
  refine ⟨g1.add p (Finset.erase ∅ p), ?_, ?_, ?_⟩
  · rw [UGraph.setitem, hpop, Option.map_some']
  · rw [UGraph.add_keys, hkeys1, hkeys]
    ext x
    simp only [Finset.mem_union, Finset.mem_insert, Finset.mem_erase,
      Finset.erase_empty, Finset.not_mem_empty, or_false]
    constructor
    · rintro (rfl | ⟨_, hx⟩)
      · exact Or.inl rfl
      · exact Or.inr hx
    · rintro (rfl | hx)
      · exact Or.inl rfl
      · by_cases hxp : x = p
        · exact Or.inl hxp
        · exact Or.inr ⟨hxp, hx⟩
  · intro v
    rw [UGraph.add_nbr]
    simp [hnbr1e, Finset.erase_empty]

/-- The first construction loop yields all intersections, blank. -/
theorem boardBlank_spec (s : ℕ) :
    ∃ g, boardBlank s = some g ∧ g.keys = allPts s ∧ ∀ v, g.nbr v = ∅ := by
  have haux : ∀ (L : List Pt) (g : UGraph Pt) (K : Finset Pt),
      g.keys = K → (∀ v, g.nbr v = ∅) →
      ∃ g', L.foldl (fun og p => og.bind (fun h => h.setitem p ∅)) (some g) =
          some g' ∧ g'.keys = K ∪ L.toFinset ∧ ∀ v, g'.nbr v = ∅ := by
    intro L
    induction L with
    | nil =>
      intro g K hkeys hnbr
      exact ⟨g, rfl, by simp [hkeys], hnbr⟩
    | cons p t ih =>
      intro g K hkeys hnbr
      obtain ⟨g1, hset, hkeys1, hnbr1⟩ := setitem_blank hkeys hnbr p
      obtain ⟨g', hfold, hkeys2, hnbr2⟩ := ih g1 (insert p K) hkeys1 hnbr1
      refine ⟨g', ?_, ?_, hnbr2⟩
      · have hstep : (some g).bind (fun h => h.setitem p ∅) = some g1 := hset
        rw [List.foldl_cons, hstep]
        exact hfold
      · rw [hkeys2]
        ext x
        simp only [Finset.mem_union, Finset.mem_insert, List.toFinset_cons]
        tauto
  obtain ⟨g, hfold, hkeys, hnbr⟩ :=
    haux (ptsList s) ⟨∅, fun _ => ∅⟩ ∅ rfl (fun v => by simp [UGraph.nbr])
  exact ⟨g, hfold, by rw [hkeys, Finset.empty_union, allPts], hnbr⟩

/-- One wiring `__setitem__` during the second construction loop: processing
intersection `p` gives it its full in-bounds neighborhood, while unprocessed
intersections hold edges to processed neighbors only. -/
theorem setitem_wire {s : ℕ} {P : Finset Pt} {g : UGraph Pt} {p : Pt}
    (hp : p ∈ allPts s) (hpP : p ∉ P)
    (hkeys : g.keys = allPts s)
    (hnbr : ∀ q ∈ allPts s, g.nbr q = if q ∈ P then Npt s q else Npt s q ∩ P) :
    ∃ g', g.setitem p (Npt s p) = some g' ∧ g'.keys = allPts s ∧
      ∀ q ∈ allPts s, g'.nbr q =
        if q ∈ insert p P then Npt s q else Npt s q ∩ insert p P := by
  have hsubN : ∀ q ∈ allPts s, g.nbr q ⊆ Npt s q := by
    intro q hq
    rw [hnbr q hq]
    by_cases h1 : q ∈ P
    · rw [if_pos h1]
    · rw [if_neg h1]; exact Finset.inter_subset_left
  have hC : Closed g := by
    intro n hn m hm
    rw [hkeys] at hn ⊢
    exact Npt_subset_allPts n (hsubN n hn hm)
  have hS : NoSelf g := by
    intro n hn hm
    rw [hkeys] at hn
    exact not_mem_Npt_self n (hsubN n hn hm)
  obtain ⟨nb, g1, hpop⟩ := UGraph.pop_total hC hS p
  obtain ⟨hnb, hkeys1, _, hnbr1⟩ := UGraph.pop_spec hpop
  have hpk : p ∈ g.keys := hkeys ▸ hp
  have hnbv : nb = Npt s p ∩ P := by
    rw [hnb, if_pos hpk, hnbr p hp, if_neg hpP]
  refine ⟨g1.add p ((Npt s p).erase p), ?_, ?_, ?_⟩
  · rw [UGraph.setitem, hpop, Option.map_some']
  · rw [UGraph.add_keys, hkeys1, hkeys, Finset.erase_eq_of_not_mem
      (not_mem_Npt_self p)]
    ext x
    simp only [Finset.mem_union, Finset.mem_insert, Finset.mem_erase]
    constructor
    · rintro ((rfl | ⟨_, hx⟩) | hx)
      · exact hp
      · exact hx
      · exact Npt_subset_allPts p hx
    · intro hx
      by_cases hxp : x = p
      · exact Or.inl (Or.inl hxp)
      · exact Or.inl (Or.inr ⟨hxp, hx⟩)
  · intro q hq
    rw [Finset.erase_eq_of_not_mem (not_mem_Npt_self p), UGraph.add_nbr]
    have hg1 : g1.nbr q =
        if q = p then ∅
        else if q ∈ nb then (g.nbr q).erase p else g.nbr q := by
      rw [hnbr1 q]
      by_cases hqp : q = p
      · simp [hqp, hpk]
      · simp [hqp, hpk]
    by_cases hqp : q = p
    · subst hqp
      rw [if_pos rfl, hg1, if_pos rfl]
      rw [if_pos (Finset.mem_insert_self _ _), if_neg (not_mem_Npt_self q)]
      simp
    · rw [if_neg hqp, hg1, if_neg hqp]
      have hqb : inB s q := mem_allPts.1 hq
      have hpb : inB s p := mem_allPts.1 hp
      have hiffpq : p ∈ Npt s q ↔ q ∈ Npt s p :=
        ⟨fun h => Npt_symm hqb h, fun h => Npt_symm hpb h⟩
      by_cases hqP : q ∈ P
      · -- processed intersection: stays fully wired
        rw [hnbr q hq, if_pos hqP, if_pos (Finset.mem_insert_of_mem hqP)]
        have hqnb : q ∈ nb ↔ q ∈ Npt s p := by
          rw [hnbv]
          simp [hqP]
        by_cases hqn : q ∈ Npt s p
        · rw [if_pos (hqnb.2 hqn), if_pos hqn]
          have hpq : p ∈ Npt s q := hiffpq.2 hqn
          ext x
          simp only [Finset.mem_union, Finset.mem_erase, Finset.mem_singleton]
          constructor
          · rintro (⟨_, hx⟩ | rfl)
            · exact hx
            · exact hpq
          · intro hx
            by_cases hxp : x = p
            · exact Or.inr hxp
            · exact Or.inl ⟨hxp, hx⟩
        · rw [if_neg (fun hc => hqn (hqnb.1 hc)), if_neg hqn]
          simp
      · -- unprocessed intersection: gains exactly the new edge to `p`
        have hqi : q ∉ insert p P := by
          simp only [Finset.mem_insert]
          rintro (rfl | hc)
          · exact hqp rfl
          · exact hqP hc
        rw [hnbr q hq, if_neg hqP, if_neg hqi]
        have hqnnb : q ∉ nb := by
          rw [hnbv]
          simp [hqP]
        rw [if_neg hqnnb]
        by_cases hqn : q ∈ Npt s p
        · rw [if_pos hqn]
          have hpq : p ∈ Npt s q := hiffpq.2 hqn
          ext x
          simp only [Finset.mem_union, Finset.mem_inter, Finset.mem_insert,
            Finset.mem_singleton]
          constructor
          · rintro (⟨h1, h2⟩ | rfl)
            · exact ⟨h1, Or.inr h2⟩
            · exact ⟨hpq, Or.inl rfl⟩
          · rintro ⟨h1, rfl | h2⟩
            · exact Or.inr rfl
            · exact Or.inl ⟨h1, h2⟩
        · rw [if_neg hqn]
          have hpq : p ∉ Npt s q := fun hc => hqn (hiffpq.1 hc)
          ext x
          simp only [Finset.mem_union, Finset.mem_inter, Finset.mem_insert,
            Finset.not_mem_empty, or_false]
          constructor
          · rintro ⟨h1, h2⟩
            exact ⟨h1, Or.inr h2⟩
          · rintro ⟨h1, rfl | h2⟩
            · exact absurd h1 hpq
            · exact ⟨h1, h2⟩

/-- The second construction loop, over any suffix of fresh intersections. -/
theorem phase2_fold (s : ℕ) :
    ∀ (L : List Pt) (P : Finset Pt) (g : UGraph Pt),
      L.Nodup → (∀ p ∈ L, p ∈ allPts s) → (∀ p ∈ L, p ∉ P) →
      g.keys = allPts s →
      (∀ q ∈ allPts s, g.nbr q = if q ∈ P then Npt s q else Npt s q ∩ P) →
      ∃ g', L.foldl (fun og p => og.bind (fun h => h.setitem p (Npt s p)))
          (some g) = some g' ∧
        g'.keys = allPts s ∧
        ∀ q ∈ allPts s, g'.nbr q =
          if q ∈ P ∪ L.toFinset then Npt s q
          else Npt s q ∩ (P ∪ L.toFinset) := by
  intro L
  induction L with
  | nil =>
    intro P g _ _ _ hkeys hnbr
    refine ⟨g, rfl, hkeys, ?_⟩
    intro q hq
    rw [hnbr q hq]
    simp
  | cons p t ih =>
    intro P g hnd hall hnotP hkeys hnbr
    obtain ⟨g1, hset, hkeys1, hnbr1⟩ :=
      setitem_wire (hall p (List.mem_cons_self p t)) (hnotP p (List.mem_cons_self p t))
        hkeys hnbr
    have hnd2 := (List.nodup_cons.1 hnd).2
    have hpt := (List.nodup_cons.1 hnd).1
    obtain ⟨g', hfold, hkeys2, hnbr2⟩ := ih (insert p P) g1 hnd2
      (fun q hq => hall q (List.mem_cons_of_mem p hq))
      (fun q hq => by
        simp only [Finset.mem_insert]
        rintro (rfl | hc)
        · exact hpt hq
        · exact hnotP q (List.mem_cons_of_mem p hq) hc)
      hkeys1 hnbr1
    refine ⟨g', ?_, hkeys2, ?_⟩
    · have hstep : (some g).bind (fun h => h.setitem p (Npt s p)) = some g1 :=
        hset
      rw [List.foldl_cons, hstep]
      exact hfold
    · intro q hq
      rw [hnbr2 q hq]
      have hsets : insert p P ∪ t.toFinset = P ∪ (p :: t).toFinset := by
        ext x
        simp only [Finset.mem_union, Finset.mem_insert, List.toFinset_cons]
        tauto
      rw [hsets]

/-- `Board.__init__` succeeds and wires exactly the in-bounds orthogonal
neighbors. -/
theorem boardGraphO_spec (s : ℕ) :
    ∃ g, boardGraphO s = some g ∧ g.keys = allPts s ∧
      ∀ q ∈ allPts s, g.nbr q = Npt s q := by
  obtain ⟨g0, hblank, hkeys0, hnbr0⟩ := boardBlank_spec s
  obtain ⟨g, hfold, hkeys, hnbr⟩ := phase2_fold s (ptsList s) ∅ g0
    (nodup_ptsList s) (fun p hp => List.mem_toFinset.2 hp)
    (fun p _ => Finset.not_mem_empty p) hkeys0
    (fun q _ => by rw [hnbr0 q]; simp)
  refine ⟨g, ?_, hkeys, ?_⟩
  · rw [boardGraphO, hblank]
    exact hfold
  · intro q hq
    rw [hnbr q hq, if_pos]
    rw [Finset.empty_union]
    exact hq

theorem theBoardGraph_keys (s : ℕ) : (theBoardGraph s).keys = allPts s := by
  obtain ⟨g, hg, hkeys, _⟩ := boardGraphO_spec s
  rw [theBoardGraph, hg, Option.getD_some]
  exact hkeys

theorem theBoardGraph_nbr {s : ℕ} {q : Pt} (hq : q ∈ allPts s) :
    (theBoardGraph s).nbr q = Npt s q := by
  obtain ⟨g, hg, _, hnbr⟩ := boardGraphO_spec s
  rw [theBoardGraph, hg, Option.getD_some]
  exact hnbr q hq

theorem theBoardGraph_wfu (s : ℕ) : WFU (theBoardGraph s) := by
  refine ⟨?_, ?_, ?_⟩
  · intro n hn m hm
    rw [theBoardGraph_keys] at hn
    rw [theBoardGraph_nbr hn] at hm
    have hmB : m ∈ allPts s := Npt_subset_allPts n hm
    rw [theBoardGraph_nbr hmB]
    exact Npt_symm (mem_allPts.1 hn) hm
  · intro n hn m hm
    rw [theBoardGraph_keys] at hn ⊢
    rw [theBoardGraph_nbr hn] at hm
    exact Npt_subset_allPts n hm
  · intro n hn hm
    rw [theBoardGraph_keys] at hn
    rw [theBoardGraph_nbr hn] at hm
    exact not_mem_Npt_self n hm

/-- The wired neighborhood has 2 elements at a corner, 3 on an edge and 4 in
the interior, for boards with at least two lines per side. -/
theorem card_Npt {s : ℕ} (hs : 1 ≤ s) {p : Pt} (hp : inB s p) :
    (Npt s p).card =
      if (p.1 = -(s : Int) ∨ p.1 = (s : Int)) ∧
          (p.2 = -(s : Int) ∨ p.2 = (s : Int)) then 2
      else if (p.1 = -(s : Int) ∨ p.1 = (s : Int)) ∨
          (p.2 = -(s : Int) ∨ p.2 = (s : Int)) then 3
      else 4 := by
  obtain ⟨hp1, hp2, hp3, hp4⟩ := hp
  have hL : Npt s p = (([((p.1 + 1, p.2 + 0) : Pt), (p.1 + 0, p.2 + 1),
      (p.1 + -1, p.2 + 0), (p.1 + 0, p.2 + -1)]).filter
        (fun q => inB s q)).toFinset := rfl
  have hnd0 : ([((p.1 + 1, p.2 + 0) : Pt), (p.1 + 0, p.2 + 1),
      (p.1 + -1, p.2 + 0), (p.1 + 0, p.2 + -1)]).Nodup := by
    refine List.nodup_cons.2 ⟨?_, List.nodup_cons.2 ⟨?_,
      List.nodup_cons.2 ⟨?_, List.nodup_singleton _⟩⟩⟩
    · intro hmem
      simp only [List.mem_cons, List.not_mem_nil, or_false] at hmem
      rcases hmem with h | h | h <;>
        · rw [Prod.mk.injEq] at h
          omega
    · intro hmem
      simp only [List.mem_cons, List.not_mem_nil, or_false] at hmem
      rcases hmem with h | h <;>
        · rw [Prod.mk.injEq] at h
          omega
    · intro hmem
      simp only [List.mem_cons, List.not_mem_nil, or_false] at hmem
      rw [Prod.mk.injEq] at hmem
      omega
  have hnd : (([((p.1 + 1, p.2 + 0) : Pt), (p.1 + 0, p.2 + 1),
      (p.1 + -1, p.2 + 0), (p.1 + 0, p.2 + -1)]).filter
        (fun q => inB s q)).Nodup := hnd0.filter _
  have e1 : inB s ((p.1 + 1, p.2 + 0) : Pt) ↔ ¬(p.1 = (s : Int)) := by
    unfold inB; dsimp only; omega
  have e2 : inB s ((p.1 + 0, p.2 + 1) : Pt) ↔ ¬(p.2 = (s : Int)) := by
    unfold inB; dsimp only; omega
  have e3 : inB s ((p.1 + -1, p.2 + 0) : Pt) ↔ ¬(p.1 = -(s : Int)) := by
    unfold inB; dsimp only; omega
  have e4 : inB s ((p.1 + 0, p.2 + -1) : Pt) ↔ ¬(p.2 = -(s : Int)) := by
    unfold inB; dsimp only; omega
  rw [hL, List.toFinset_card_of_nodup hnd]
  by_cases c1 : inB s ((p.1 + 1, p.2 + 0) : Pt) <;>
    by_cases c2 : inB s ((p.1 + 0, p.2 + 1) : Pt) <;>
      by_cases c3 : inB s ((p.1 + -1, p.2 + 0) : Pt) <;>
        by_cases c4 : inB s ((p.1 + 0, p.2 + -1) : Pt) <;>
          · simp only [List.filter_cons, List.filter_nil, decide_eq_true_eq,
              c1, c2, c3, c4, if_true, if_false, List.length_cons,
              List.length_nil]
            rw [e1] at c1
            rw [e2] at c2
            rw [e3] at c3
            rw [e4] at c4
            split_ifs <;> omega

/-! ## The colored board (`src/board.py`, class `Board`)

A stone's color is a mutable cell keyed by its intersection, so the colored
board is the (fixed) adjacency graph together with a per-intersection color
assignment.  The constructor consumes one `color()` per intersection, in the
order of the construction loop (`for rank: for file`). -/

structure GBoard where
  size : ℕ
  color : Pt → Color

/-- Rank-major index of an intersection in construction order. -/
def idxP (s : ℕ) (p : Pt) : ℕ := ((p.2 + (s : Int)) * (2 * s + 1) + (p.1 + (s : Int))).toNat

/-- `Board.__init__` with a color supplier: intersection `(file, rank)`
receives the `idxP`-th supplied color (off-board points carry `empty`,
they hold no stone). -/
def mkBoard (s : ℕ) (supply : ℕ → Color) : GBoard :=
  ⟨s, fun p => if inB s p then supply (idxP s p) else Color.empty⟩

/-- `Board()` with the default supplier `lambda: "empty"`. -/
def freshBoard (s : ℕ) : GBoard := mkBoard s (fun _ => Color.empty)

/-! ## Saving and loading (`Board.save` / `Board.load` / `Board.__str__`)

`save` writes `f"{self.size}\n{self}"` where `Board.__str__` is a newline
followed by one `repr` character per stone, sorted by `(rank, file)` — the
same rank-major order as `ptsList`.  `load` reads the file character by
character, skipping whitespace (`read_strip`), parses the first character
with `int(...)` as the size, and parses every subsequent character with
`Color(...)` — an enum lookup *by value*. -/

/-- `Board.__str__` preceded by the size line, as `save` writes it. -/
def saveChars (b : GBoard) : List Char :=
  (Nat.repr b.size).toList ++ ['\n', '\n'] ++
    (ptsList b.size).map (fun p => (b.color p).reprChar)

/-- `int(c)` on a single character. -/
def intOfChar (c : Char) : Option ℕ :=
  if c.isDigit then some (c.toNat - '0'.toNat) else none

/-- Read the colors for `n` intersections: each one is
`Color(read_strip(1))`, i.e. `colorFromValue` applied to a one-character
*string* — never an `int`, so the enum lookup raises `ValueError`. -/
def readColors : ℕ → List Char → Option (List Color)
  | 0, _ => some []
  | _ + 1, [] => none
  | n + 1, c :: rest =>
    match colorFromValue (.str (String.mk [c])) with
    | none => none
    | some col =>
      match readColors n rest with
      | none => none
      | some cols => some (col :: cols)

/-- `Board.load`: strip whitespace, read one character as the size, then one
character per intersection as its color. -/
def loadChars (cs : List Char) : Option GBoard :=
  match cs.filter (fun c => !c.isWhitespace) with
  | [] => none
  | c0 :: rest =>
    match intOfChar c0 with
    | none => none
    | some s =>
      match readColors ((2 * s + 1) * (2 * s + 1)) rest with
      | none => none
      | some cols =>
        some (mkBoard s (fun i => cols.getD i Color.empty))

/-- Reading at least one color always fails: the characters `save` wrote are
color glyphs, and `Color(...)` looks members up by their `int` values. -/
theorem readColors_none (n : ℕ) (cs : List Char) :
    readColors (n + 1) cs = none := by
  cases cs with
  | nil => rfl
  | cons c rest => rfl

/-- `load` fails on every input: every board needs `(2s+1)^2 ≥ 1` colors and
the very first color read raises `ValueError`. -/
theorem loadChars_none (cs : List Char) : loadChars cs = none := by
  unfold loadChars
  cases hf : cs.filter (fun c => !c.isWhitespace) with
  | nil => rfl
  | cons c0 rest =>
    cases hi : intOfChar c0 with
    | none => simp only [hi]
    | some s =>
      simp only [hi]
      have hn : (2 * s + 1) * (2 * s + 1) = (2 * s) * (2 * s + 1) + 2 * s + 1 := by
        ring
      have hrw : readColors ((2 * s + 1) * (2 * s + 1)) rest = none := by
        rw [hn]
        exact readColors_none _ _
      simp only [hrw]

/-! ## Players and the move state machine (`src/player.py`, `src/go.py`)

A player owns a color, shares the board, and remembers a deep copy of the
board from their own previous completed move (`self.state`, the ko memory).
`Go.turn` draws the next player from a fixed 2-cycle and calls
`Player.move`, which loops reading entries until a pass or an accepted
placement; rejected attempts re-prompt the same player. -/

/-- `Board.put`: set the stone's color at its intersection. -/
def GBoard.put (b : GBoard) (p : Pt) (c : Color) : GBoard :=
  ⟨b.size, fun q => if q = p then c else b.color q⟩

/-- `Board.remove` as used by `move`: reset the color to `empty`. -/
def GBoard.removeStone (b : GBoard) (p : Pt) : GBoard := b.put p Color.empty

/-- `Board.liberties`: the empty intersections at the boundary of a base
(`not stone.color` — `empty` is the falsy color). -/
def GBoard.libertiesB (b : GBoard) (base : Finset Pt) : Finset Pt :=
  ((theBoardGraph b.size).boundary base).filter (fun q => !(b.color q).truthy)

/-- `Player.base`: `cluster` of the stone on the board graph under the
player's `color_similarity` condition (`stone.color == self.color`). -/
def baseOf (b : GBoard) (p : Pt) (c : Color) : Option (Finset Pt) :=
  (clusterRun (theBoardGraph b.size) p
    (fun q => Color.eqPy (b.color q) c)).map (fun r => r.1)

/-- Modelled from the spec: `Board.__eq__` — the working `Stone` variant
(board indexing by intersection) is absent from `src`, where color-keyed
stone equality makes the dict comparison incoherent; spec section 4.2
defines board equality as equal size with equal color at every
intersection. -/
def boardEqB (a b : GBoard) : Prop :=
  a.size = b.size ∧ ∀ p ∈ allPts a.size, a.color p = b.color p

instance (a b : GBoard) : Decidable (boardEqB a b) := by
  unfold boardEqB; infer_instance

/-- Python truthiness of the remembered board (`self.state and ...`): a
dict is truthy iff it has keys, and a board holds `(2s+1)^2` stones. -/
def boardTruthy (b : GBoard) : Prop := (allPts b.size).Nonempty

instance (b : GBoard) : Decidable (boardTruthy b) := by
  unfold boardTruthy; infer_instance

structure PlayerSt where
  color : Color
  state : GBoard
  passed : Bool

structure Game where
  board : GBoard
  cur : PlayerSt
  opp : PlayerSt

/-- One parsed input of `Player.move` (the regex admits only single-digit,
in-bounds coordinates). -/
inductive Entry where
  | pass
  | play (p : Pt)

inductive Outcome where
  | occupied
  | illegal
  | accepted
  | passed
deriving DecidableEq

/-- One iteration of the `while True` loop in `Player.move`.  `passed` is
reset on entry to `move`; a `pass` sets it and returns; a play on a
non-empty intersection re-prompts with no mutation; otherwise the stone is
placed, and if the mover's base has no liberties or the board equals the
mover's remembered state the stone is removed and the player re-prompts,
else the remembered state becomes a copy of the board and the move
completes.  Completed moves and passes end the turn, after which `Go.turn`
advances the 2-cycle — modelled by swapping `cur` and `opp`.  Looking up an
off-board stone raises `KeyError` (`none`); so would a failing `cluster`. -/
def attempt (g : Game) (e : Entry) : Option (Outcome × Game) :=
  match e with
  | .pass =>
    some (.passed, ⟨g.board, g.opp, ⟨g.cur.color, g.cur.state, true⟩⟩)
  | .play p =>
    if inB g.board.size p then
      if g.board.color p = Color.empty then
        match baseOf (g.board.put p g.cur.color) p g.cur.color with
        | none => none
        | some base =>
          if (g.board.put p g.cur.color).libertiesB base = ∅ ∨
              (boardTruthy g.cur.state ∧
                boardEqB (g.board.put p g.cur.color) g.cur.state) then
            some (.illegal, ⟨(g.board.put p g.cur.color).removeStone p,
              ⟨g.cur.color, g.cur.state, false⟩, g.opp⟩)
          else
            some (.accepted, ⟨g.board.put p g.cur.color, g.opp,
              ⟨g.cur.color, g.board.put p g.cur.color, false⟩⟩)
      else
        some (.occupied, ⟨g.board, ⟨g.cur.color, g.cur.state, false⟩, g.opp⟩)
    else none

def outcomeOf (g : Game) (e : Entry) : Option Outcome :=
  (attempt g e).map Prod.fst

def nextOf (g : Game) (e : Entry) : Option Game :=
  (attempt g e).map Prod.snd

/-- `Go.turn` ends the game (`exit`) when both players have passed. -/
def gameOver (g : Game) : Prop := g.cur.passed = true ∧ g.opp.passed = true

instance (g : Game) : Decidable (gameOver g) := by
  unfold gameOver; infer_instance

/-- Every intersection lookup has a base: `cluster` always completes on the
(well-formed) board graph. -/
theorem baseOf_total (b : GBoard) (p : Pt) (c : Color) :
    ∃ base, baseOf b p c = some base := by
  obtain ⟨r, hr⟩ := (clusterF_total ((theBoardGraph b.size).keys.card + 1)).1
    (theBoardGraph b.size) p (fun q => Color.eqPy (b.color q) c)
    (theBoardGraph_wfu b.size) (Nat.lt_succ_self _)
  exact ⟨r.1, by rw [baseOf, clusterRun, hr, Option.map_some']⟩

theorem allPts_nonempty (s : ℕ) : (allPts s).Nonempty :=
  ⟨(0, 0), mem_allPts.2 (by unfold inB; omega)⟩

theorem boardTruthy_always (b : GBoard) : boardTruthy b :=
  allPts_nonempty b.size

/-- Reverting the just-placed stone restores the board exactly. -/
theorem put_remove_cancel {b : GBoard} {p : Pt} (c : Color)
    (he : b.color p = Color.empty) : (b.put p c).removeStone p = b := by
  cases b with
  | mk sz col =>
    simp only [GBoard.put, GBoard.removeStone]
    congr 1
    funext q
    by_cases hq : q = p
    · subst hq
      simp only [if_pos rfl]
      exact he.symm
    · simp only [if_neg hq]

/-- A rejected (suicide-or-ko) attempt hands back the original board and
the same player to move. -/
theorem attempt_illegal_next {g : Game} {p : Pt}
    (h : outcomeOf g (.play p) = some Outcome.illegal) :
    nextOf g (.play p) =
      some ⟨g.board, ⟨g.cur.color, g.cur.state, false⟩, g.opp⟩ := by
  simp only [outcomeOf, attempt] at h
  simp only [nextOf, attempt]
  by_cases hb : inB g.board.size p
  · rw [if_pos hb] at h ⊢
    by_cases he : g.board.color p = Color.empty
    · rw [if_pos he] at h ⊢
      cases hbase : baseOf (g.board.put p g.cur.color) p g.cur.color with
      | none =>
        rw [hbase] at h
        exact absurd h (by simp)
      | some base =>
        rw [hbase] at h
        dsimp only at h ⊢
        by_cases hc : (g.board.put p g.cur.color).libertiesB base = ∅ ∨
            (boardTruthy g.cur.state ∧
              boardEqB (g.board.put p g.cur.color) g.cur.state)
        · rw [if_pos hc]
          rw [Option.map_some', Option.some.injEq]
          rw [put_remove_cancel g.cur.color he]
        · rw [if_neg hc] at h
          exact absurd (Option.some.inj h) (by simp)
    · rw [if_neg he] at h
      exact absurd (Option.some.inj h) (by simp)
  · rw [if_neg hb] at h
    exact absurd h (by simp)

/-- Placing onto a board identical to the mover's remembered state is
rejected. -/
theorem attempt_ko_illegal {g : Game} {p : Pt} (hb : inB g.board.size p)
    (he : g.board.color p = Color.empty)
    (hko : boardEqB (g.board.put p g.cur.color) g.cur.state) :
    outcomeOf g (.play p) = some Outcome.illegal := by
  simp only [outcomeOf, attempt]
  rw [if_pos hb, if_pos he]
  obtain ⟨base, hbase⟩ := baseOf_total (g.board.put p g.cur.color) p g.cur.color
  rw [hbase]
  dsimp only
  rw [if_pos (Or.inr ⟨boardTruthy_always _, hko⟩)]
  rfl

/-- A completed move records the resulting board as the mover's new
remembered state. -/
theorem attempt_accepted_state {g : Game} {p : Pt}
    (h : outcomeOf g (.play p) = some Outcome.accepted) :
    (nextOf g (.play p)).map (fun x => x.opp.state) =
      (nextOf g (.play p)).map (fun x => x.board) := by
  simp only [outcomeOf, attempt] at h
  simp only [nextOf, attempt]
  by_cases hb : inB g.board.size p
  · rw [if_pos hb] at h ⊢
    by_cases he : g.board.color p = Color.empty
    · rw [if_pos he] at h ⊢
      cases hbase : baseOf (g.board.put p g.cur.color) p g.cur.color with
      | none =>
        rw [hbase] at h
        exact absurd h (by simp)
      | some base =>
        rw [hbase] at h
        dsimp only at h ⊢
        by_cases hc : (g.board.put p g.cur.color).libertiesB base = ∅ ∨
            (boardTruthy g.cur.state ∧
              boardEqB (g.board.put p g.cur.color) g.cur.state)
        · rw [if_pos hc] at h
          exact absurd (Option.some.inj h) (by simp)
        · rw [if_neg hc]
          rfl
    · rw [if_neg he] at h
      exact absurd (Option.some.inj h) (by simp)
  · rw [if_neg hb] at h
    exact absurd h (by simp)

/-- The board of the capture-law scenario: a size-1 board with a white
stone at the origin and black stones on three of its four neighbors. -/
def boardC1 : GBoard :=
  ⟨1, fun p => if p = ((0 : Int), (0 : Int)) then Color.white
    else if p = (0, 1) ∨ p = (1, 0) ∨ p = (0, -1) then Color.black
    else Color.empty⟩

/-- Black to move in the capture-law scenario, filling white's last
liberty at `(-1, 0)`. -/
def gameC1 : Game :=
  ⟨boardC1, ⟨Color.black, boardC1, false⟩, ⟨Color.white, boardC1, false⟩⟩

/-- The suicide scenario: white to play the origin of a size-1 board whose
four neighbors are all black. -/
def boardC3 : GBoard :=
  ⟨1, fun p => if p = ((0 : Int), (1 : Int)) ∨ p = (1, 0) ∨ p = (0, -1) ∨
      p = (-1, 0) then Color.black
    else Color.empty⟩

def gameC3 : Game :=
  ⟨boardC3, ⟨Color.white, boardC3, false⟩, ⟨Color.black, boardC3, false⟩⟩

/-- An empty size-1 board with black to move (a plainly legal move). -/
def boardC4 : GBoard := ⟨1, fun _ => Color.empty⟩

def gameC4a : Game :=
  ⟨boardC4, ⟨Color.black, boardC4, false⟩, ⟨Color.white, boardC4, false⟩⟩

/-- Black to move on the empty board, but remembering — from their own
previous completed move — exactly the position that playing `(0, 0)` would
recreate. -/
def gameC4b : Game :=
  ⟨boardC4, ⟨Color.black, boardC4.put ((0 : Int), (0 : Int)) Color.black,
    false⟩, ⟨Color.white, boardC4, false⟩⟩

/-! ## Claims -/

/-- C7 (amended): for every size `s ≥ 0`, construction succeeds, the board
has exactly `(2s+1)^2` intersections, a freshly built board is all `empty`,
and each intersection is wired exactly to its in-bounds orthogonal
neighbors; for `s ≥ 1` the neighborhood cardinality is 2 at corners, 3 at
edges and 4 in the interior (for `s = 0` the sole intersection has 0
neighbors — see the counterexample). -/
theorem C7_board_construction_amended (s : ℕ) :
    (boardGraphO s).isSome ∧
    (theBoardGraph s).keys.card = (2 * s + 1) ^ 2 ∧
    (∀ p ∈ (theBoardGraph s).keys, (freshBoard s).color p = Color.empty) ∧
    (∀ p ∈ (theBoardGraph s).keys, (theBoardGraph s).nbr p = Npt s p) ∧
    (1 ≤ s → ∀ p ∈ (theBoardGraph s).keys,
      ((theBoardGraph s).nbr p).card =
        if (p.1 = -(s : Int) ∨ p.1 = (s : Int)) ∧
            (p.2 = -(s : Int) ∨ p.2 = (s : Int)) then 2
        else if (p.1 = -(s : Int) ∨ p.1 = (s : Int)) ∨
            (p.2 = -(s : Int) ∨ p.2 = (s : Int)) then 3
        else 4) := by
  obtain ⟨g, hg, _, _⟩ := boardGraphO_spec s
  refine ⟨by rw [hg]; rfl, ?_, ?_, ?_, ?_⟩
  · rw [theBoardGraph_keys, card_allPts]
  · intro p _
    simp [freshBoard, mkBoard]
  · intro p hp
    exact theBoardGraph_nbr (theBoardGraph_keys s ▸ hp)
  · intro hs p hp
    rw [theBoardGraph_nbr (theBoardGraph_keys s ▸ hp)]
    exact card_Npt hs (mem_allPts.1 (theBoardGraph_keys s ▸ hp))

/-- C7 (counterexample): on the size-0 board the sole intersection `(0, 0)`
(which is a corner: both coordinates extreme) has an empty neighborhood, so
its cardinality is 0, not one of 2/3/4 as the claim states for every
`s ≥ 0`. -/
theorem C7_board_construction_counterexample :
    ((0, 0) : Pt) ∈ (theBoardGraph 0).keys ∧
      (theBoardGraph 0).nbr (0, 0) = ∅ ∧
      ¬(((theBoardGraph 0).nbr (0, 0)).card = 2 ∨
        ((theBoardGraph 0).nbr (0, 0)).card = 3 ∨
        ((theBoardGraph 0).nbr (0, 0)).card = 4) :=
  ⟨by decide, by decide, by decide⟩

/-- C7 (witness): the amended statement at `s = 1`, with the cardinality
clause discharged. -/
theorem C7_board_construction_witness :
    (boardGraphO 1).isSome ∧
    (theBoardGraph 1).keys.card = 9 ∧
    (∀ p ∈ (theBoardGraph 1).keys, (freshBoard 1).color p = Color.empty) ∧
    (∀ p ∈ (theBoardGraph 1).keys, (theBoardGraph 1).nbr p = Npt 1 p) ∧
    (∀ p ∈ (theBoardGraph 1).keys,
      ((theBoardGraph 1).nbr p).card =
        if (p.1 = -(1 : Int) ∨ p.1 = (1 : Int)) ∧
            (p.2 = -(1 : Int) ∨ p.2 = (1 : Int)) then 2
        else if (p.1 = -(1 : Int) ∨ p.1 = (1 : Int)) ∨
            (p.2 = -(1 : Int) ∨ p.2 = (1 : Int)) then 3
        else 4) :=
  ⟨(C7_board_construction_amended 1).1,
    (C7_board_construction_amended 1).2.1,
    (C7_board_construction_amended 1).2.2.1,
    (C7_board_construction_amended 1).2.2.2.1,
    (C7_board_construction_amended 1).2.2.2.2 (by decide)⟩

/-- C8 (code bug): saving any board and loading it back never yields a
board — `load` always raises `ValueError`, because it parses each color
character with `Color(...)`, an enum lookup by the members' `int` values,
while `save` wrote `repr` glyph characters (and no string ever equals an
`int`).  Evaluated at the failing input: the fresh size-0 board, whose save
file is `"0\n\n"` followed by the empty-intersection glyph. -/
theorem C8_save_load_roundtrip_bug :
    saveChars (freshBoard 0) = ['0', '\n', '\n', Char.ofNat 0x1F7E4] ∧
      loadChars (saveChars (freshBoard 0)) = none ∧
      (∀ cs : List Char, loadChars cs = none) :=
  ⟨by decide, loadChars_none _, loadChars_none⟩

/-- C9: stones compare equal exactly when their colors compare equal — in
particular two stones at different intersections with the same color are
equal — while a stone's hash is derived from its intersection only (it is
invariant under color changes and determined by the point). -/
theorem C9_stone_equality_by_color :
    (∀ s t : Stone, Stone.eqPy s t = true ↔ Color.eqPy s.color t.color = true) ∧
    (∀ (p q : Point) (c : Color), Stone.eqPy ⟨p, c⟩ ⟨q, c⟩ = true) ∧
    (∀ s t : Stone, s.point = t.point → Stone.hashS s = Stone.hashS t) ∧
    (∀ (p : Point) (c1 c2 : Color),
      Stone.hashS ⟨p, c1⟩ = Stone.hashS ⟨p, c2⟩) := by
  refine ⟨fun s t => Iff.rfl, fun p q c => ?_,
    fun s t h => by rw [Stone.hashS, Stone.hashS, h], fun p c1 c2 => rfl⟩
  cases c <;> rfl

/-- C9 (witness): two same-colored stones on different intersections are
equal, and recoloring a stone leaves its hash unchanged. -/
theorem C9_stone_equality_by_color_witness :
    Stone.eqPy ⟨mkPoint (-1) 1 9, Color.white⟩ ⟨mkPoint 1 (-1) 9, Color.white⟩
        = true ∧
      Stone.hashS ⟨mkPoint 0 0 9, Color.black⟩ =
        Stone.hashS ⟨mkPoint 0 0 9, Color.white⟩ :=
  ⟨C9_stone_equality_by_color.2.1 _ _ _,
    C9_stone_equality_by_color.2.2.1 ⟨mkPoint 0 0 9, Color.black⟩
      ⟨mkPoint 0 0 9, Color.white⟩ (by decide)⟩

/-- C10: the `Color.__ne__` override `abs(self - other) == 2` holds exactly
for the pair black/white; in particular `black != empty`, `white != empty`
and `empty != empty` are all false, `black == empty` and `white == empty`
are false, and `empty == empty` is true. -/
theorem C10_color_inequality :
    (∀ a b : Color, Color.nePy a b = true ↔
      ((a = Color.black ∧ b = Color.white) ∨
        (a = Color.white ∧ b = Color.black))) ∧
    Color.nePy Color.black Color.empty = false ∧
    Color.nePy Color.white Color.empty = false ∧
    Color.nePy Color.empty Color.empty = false ∧
    Color.eqPy Color.black Color.empty = false ∧
    Color.eqPy Color.white Color.empty = false ∧
    Color.eqPy Color.empty Color.empty = true := by
  refine ⟨fun a b => ?_, rfl, rfl, rfl, rfl, rfl, rfl⟩
  cases a <;> cases b <;> decide

/-- C1 (code bug): in the capture-law scenario — a size-1 board, the white
stone at the origin, black on three of its neighbors — black completes the
move filling white's last liberty at `(-1, 0)`, yet the white stone is
still on the board afterwards and its group's liberty set is empty: the
capture routine (`Player.kill`) is never invoked between placement and the
mover's own liberty check (nor anywhere else in `Player.move`/`Go.turn`). -/
theorem C1_capture_not_invoked :
    outcomeOf gameC1 (.play (-1, 0)) = some Outcome.accepted ∧
      ((nextOf gameC1 (.play (-1, 0))).map (fun x => (x.board.color (0, 0),
        (baseOf x.board (0, 0) Color.white).map
          (fun base => x.board.libertiesB base)))) =
        some (Color.white, some ∅) :=
  ⟨by decide, by decide⟩

/-- C3: every attempt rejected as suicide or ko (the source merges both
into one rejection branch) leaves the game exactly as before the attempt:
the board is restored — the placed stone reverted to `empty` and nothing
else changed — the same player is to move with the same color and
remembered state, and the game is not over. -/
theorem C3_rejection_restores (g : Game) (p : Pt)
    (h : outcomeOf g (.play p) = some Outcome.illegal) :
    nextOf g (.play p) =
      some ⟨g.board, ⟨g.cur.color, g.cur.state, false⟩, g.opp⟩ ∧
      ¬ gameOver ⟨g.board, ⟨g.cur.color, g.cur.state, false⟩, g.opp⟩ :=
  ⟨attempt_illegal_next h, fun hc => Bool.false_ne_true hc.1⟩

/-- C3 (witness): white's suicide play at the origin of the surrounded
size-1 board is rejected, and the game state is fully restored. -/
theorem C3_rejection_restores_witness :
    outcomeOf gameC3 (.play (0, 0)) = some Outcome.illegal ∧
      nextOf gameC3 (.play (0, 0)) =
        some ⟨gameC3.board, ⟨gameC3.cur.color, gameC3.cur.state, false⟩,
          gameC3.opp⟩ ∧
      ¬ gameOver ⟨gameC3.board, ⟨gameC3.cur.color, gameC3.cur.state, false⟩,
        gameC3.opp⟩ :=
  ⟨by decide, (C3_rejection_restores gameC3 (0, 0) (by decide)).1,
    (C3_rejection_restores gameC3 (0, 0) (by decide)).2⟩

/-- C4: after a completed (accepted, non-pass) move the mover's remembered
state equals the resulting whole-board state (boards are immutable values
in this embedding, so the recorded snapshot is exactly the independent deep
copy `Board(self.board.copy())` makes); and a move whose post-placement
board equals the mover's remembered state from their own previous completed
move is rejected, with the placed stone reverted to `empty` and nothing
else changed. -/
theorem C4_ko_memory (g : Game) (p : Pt) :
    (outcomeOf g (.play p) = some Outcome.accepted →
      (nextOf g (.play p)).map (fun x => x.opp.state) =
        (nextOf g (.play p)).map (fun x => x.board)) ∧
    (inB g.board.size p → g.board.color p = Color.empty →
      boardEqB (g.board.put p g.cur.color) g.cur.state →
      outcomeOf g (.play p) = some Outcome.illegal ∧
        nextOf g (.play p) =
          some ⟨g.board, ⟨g.cur.color, g.cur.state, false⟩, g.opp⟩) :=
  ⟨attempt_accepted_state,
    fun hb he hko =>
      ⟨attempt_ko_illegal hb he hko,
        attempt_illegal_next (attempt_ko_illegal hb he hko)⟩⟩

/-- C4 (witness): a completed move on the empty board records the
resulting board as the mover's state, and a move recreating the mover's
remembered position is rejected with the board restored. -/
theorem C4_ko_memory_witness :
    ((nextOf gameC4a (.play (0, 0))).map (fun x => x.opp.state) =
      (nextOf gameC4a (.play (0, 0))).map (fun x => x.board)) ∧
    (outcomeOf gameC4b (.play (0, 0)) = some Outcome.illegal ∧
      nextOf gameC4b (.play (0, 0)) =
        some ⟨gameC4b.board, ⟨gameC4b.cur.color, gameC4b.cur.state, false⟩,
          gameC4b.opp⟩) :=
  ⟨(C4_ko_memory gameC4a (0, 0)).1 (by decide),
    (C4_ko_memory gameC4b (0, 0)).2 (by decide) (by decide) (by decide)⟩

/-- C2 (amended): for every well-formed undirected graph (symmetric, closed,
self-edge-free — the invariant the class maintains) and every predicate,
`clusters(predicate)` succeeds and the union of the returned clusters is the
full node set; under the constantly-false predicate the result is exactly one
singleton cluster per node.  Pairwise disjointness fails for general
predicates (see the counterexample). -/
theorem C2_clusters_partition_amended {V : Type} [DecidableEq V] [Encodable V]
    (g : UGraph V) (c : V → Bool) (hw : WFU g) :
    (∃ res, g.clusters c = some res ∧ res.biUnion id = g.keys) ∧
      g.clusters (fun _ => false) =
        some (g.keys.image (fun n => ({n} : Finset V))) := by
  constructor
  · obtain ⟨res, hres, _, hresK, hcov⟩ :=
      clustersGo_spec c (iterL g.keys) g ∅ g.keys hw (fun x hx => hx)
        (by
          intro x hx
          have := List.mem_toFinset.1 hx
          rwa [iterL_mem] at this)
    refine ⟨res, hres, ?_⟩
    ext x
    simp only [Finset.mem_biUnion, id]
    constructor
    · rintro ⟨s, hs, hx⟩
      rcases hresK s hs with h0 | h0
      · exact absurd h0 (Finset.not_mem_empty s)
      · exact h0 hx
    · intro hx
      exact hcov x (by rw [iterL_mem]; exact hx)
  · show clustersGo (iterL g.keys) g _ ∅ = _
    rw [clustersGo_false (iterL g.keys) g ∅ hw]
    congr 1
    rw [Finset.empty_union]
    congr 1
    rw [iterL_toFinset]

/-- C2 (counterexample): on the two-node graph `{1: {2}, 2: {1}}` with the
predicate "node equals 2", `clusters` returns `{{1, 2}, {2}}`: node 2 lies in
two distinct returned clusters, so the result is not a partition (not
pairwise disjoint), refuting the claim as stated. -/
theorem C2_clusters_partition_counterexample :
    ((UGraph.init [(1, ({2} : Finset ℕ)), (2, {1})]).clusters
        (fun n => n == 2)).map
      (fun S => (decide (({1, 2} : Finset ℕ) ∈ S),
        decide (({2} : Finset ℕ) ∈ S), S.card)) = some (true, true, 2) ∧
      ({1, 2} : Finset ℕ) ≠ {2} ∧
      (2 : ℕ) ∈ ({1, 2} : Finset ℕ) ∧ (2 : ℕ) ∈ ({2} : Finset ℕ) :=
  ⟨by decide, by decide, by decide, by decide⟩

/-- C2 (witness): the amended statement instantiated on the concrete graph
`{1: {2}, 2: {1}}`. -/
theorem C2_clusters_partition_witness :
    (∃ res,
        (UGraph.init [(1, ({2} : Finset ℕ)), (2, {1})]).clusters
            (fun n => n == 2) = some res ∧
          res.biUnion id =
            (UGraph.init [(1, ({2} : Finset ℕ)), (2, {1})]).keys) ∧
      (UGraph.init [(1, ({2} : Finset ℕ)), (2, {1})]).clusters
          (fun _ => false) =
        some ((UGraph.init [(1, ({2} : Finset ℕ)), (2, {1})]).keys.image
          (fun n => ({n} : Finset ℕ))) :=
  C2_clusters_partition_amended _ _ (by decide)

/-- C5: every undirected graph reachable by construction and any sequence of
`add` and (successful) `pop` operations has symmetric edges: for every node
`n` in the graph and every `m` in `neighbors(n)`, `n` is in `neighbors(m)`. -/
theorem C5_symmetric_edges {V : Type} [DecidableEq V] {g : UGraph V}
    (h : Reach g) : ∀ n ∈ g.keys, ∀ m ∈ g.nbr n, n ∈ g.nbr m := by
  induction h with
  | init d => exact symm_init d
  | add g node nb _ ih => exact symm_add ih node nb
  | pop g node dflt nb g' _ hp ih => exact symm_pop ih hp

/-- C5 (witness): a graph built by construction, one `add` and one `pop` is
symmetric. -/
theorem C5_symmetric_edges_witness :
    Symm ((UGraph.init [(1, ({2} : Finset ℕ)), (2, {1})]).add 3 {1}) :=
  C5_symmetric_edges (Reach.add _ 3 {1} (Reach.init _))

/-- C6 (counterexample): `add` does not discard a supplied self-edge: adding
node 1 with neighborhood `{1}` to the empty graph leaves 1 a member of its
own neighborhood, refuting the claim for the insertion operations `add` (and
`update`, which delegates to `add`). -/
theorem C6_no_self_edges_counterexample :
    (1 : ℕ) ∈ ((UGraph.init ([] : List (ℕ × Finset ℕ))).add 1 {1}).keys ∧
      (1 : ℕ) ∈ ((UGraph.init ([] : List (ℕ × Finset ℕ))).add 1 {1}).nbr 1 :=
  ⟨by decide, by decide⟩

/-- C6 (amended): graph construction and item assignment never leave a node
in its own neighborhood — a self-edge supplied there is discarded; but `add`
(and `update`, which delegates to `add`) inserts a supplied self-edge
without discarding it. -/
theorem C6_no_self_edges_amended {V : Type} [DecidableEq V] :
    (∀ d : List (V × Finset V), NoSelf (UGraph.init d)) ∧
      (∀ (g : UGraph V) (node : V) (nb : Finset V), NoSelf g →
        NoSelfAfter (g.setitem node nb)) := by
  refine ⟨noSelf_init, ?_⟩
  intro g node nb hns g' hg'
  unfold UGraph.setitem at hg'
  cases hpop : g.pop node ∅ with
  | none =>
    rw [hpop] at hg'
    exact absurd hg' (by simp)
  | some p =>
    rw [hpop] at hg'
    have heq : p.2.add node (nb.erase node) = g' := by simpa using hg'
    rw [← heq]
    exact noSelf_add (noSelf_pop hns hpop) (Finset.not_mem_erase _ _)

/-- C6 (witness): the amended statement at a concrete construction (with a
self-edge supplied) and a concrete item assignment. -/
theorem C6_no_self_edges_witness :
    NoSelf (UGraph.init [(1, ({1, 2} : Finset ℕ))]) ∧
      NoSelfAfter ((UGraph.init [(1, ({1, 2} : Finset ℕ))]).setitem 2 {2, 1}) :=
  ⟨C6_no_self_edges_amended.1 _,
    C6_no_self_edges_amended.2 _ 2 {2, 1} (by decide)⟩

end GoSpec
